import Mathlib

/-!
# kubesort — verification of the sorting rule engine and path-patch engine

Shallow embedding of the Go sources of `xrstf/kubesort`:

* `pkg/sort/object.go` — `SortingRule`, `Validate`, `JSONPath`, `Matches`,
  `Object`, `applyRule`, `sortSlice`, `sortSliceByValue`, `sortSliceByKey`,
  `getField`, `sortRBACRules`, `compareStringSlices`, `sortRBACSubjects`.
* the `sort.Objects` entry point and the top-level manifest comparator
  (also present in `main.go` as `sortObjects`).
* `pkg/types/rules.go` / `pkg/types/config.go` — the default rule set and
  the pure rule-combination step of `LoadConfig`.
* `pkg/jsonpath` — `Patch`/`Set`.  The implementation of this package is not
  part of the source snapshot (only its test file is), so it is modelled
  from the specification, §4.1.

Dynamic Go values (`any` trees decoded from YAML/JSON) are modelled by the
inductive type `Value`; Go maps `map[string]any` by association lists with
unique keys and insertion-order semantics (`lookupEntry` / `setEntry`).

Go's `slices.SortStableFunc` is documented to be a stable sort by the given
comparator; it is embedded as `List.mergeSort` (the canonical stable sort)
ordered by `cmp a b ≤ 0`.  Go's `slices.SortFunc` is NOT stable: for slices
of length ≤ 12 it is exactly insertion sort (`maxInsertion = 12` in
`pdqsort`), which is embedded faithfully as `insertionSortCmp`; theorems
about it carry a `length ≤ 12` hypothesis since the pdqsort path for longer
inputs is not modelled.
-/

namespace Kubesort

/-- A dynamic YAML/JSON value (`any` in the Go sources): `Null`, scalars,
`Sequence` (`[]any`) and `Mapping` (`map[string]any`, modelled as an
association list with unique keys). -/
inductive Value where
  | null
  | str (s : String)
  | num (n : Int)
  | bool (b : Bool)
  | seq (items : List Value)
  | map (entries : List (String × Value))

/-- Is this value a Sequence (`[]any`)?  Used to model the `val.([]any)`
type assertion in `applyRule`. -/
def Value.isSeq : Value → Bool
  | .seq _ => true
  | _ => false

/-- Map lookup: `m[key]` on a `map[string]any`. -/
def lookupEntry (m : List (String × Value)) (key : String) : Option Value :=
  match m with
  | [] => none
  | (k, v) :: rest => if k = key then some v else lookupEntry rest key

/-- Map write: `m[key] = v` on a `map[string]any`: replaces the existing
entry or appends a new one. -/
def setEntry (m : List (String × Value)) (key : String) (v : Value) :
    List (String × Value) :=
  match m with
  | [] => [(key, v)]
  | (k, w) :: rest => if k = key then (k, v) :: rest else (k, w) :: setEntry rest key v

/-- Three-way lexicographic comparison of character lists, -1 / 0 / 1. -/
def goCompareChars : List Char → List Char → Int
  | [], [] => 0
  | [], _ :: _ => -1
  | _ :: _, [] => 1
  | a :: as, b :: bs => if a < b then -1 else if b < a then 1 else goCompareChars as bs

/-- Go's `strings.Compare`: -1 / 0 / 1 by lexicographic order.  (Go compares
UTF-8 bytes; UTF-8 byte order coincides with code-point order, so comparing
the character lists is faithful.) -/
def goCompare (a b : String) : Int :=
  goCompareChars a.data b.data

/-- One bubbling insertion step of Go's `insertionSortCmpFunc`: the new
element `x` moves down past the longest suffix of already-placed elements
`y` with `cmp x y < 0`. -/
def insertR (cmp : α → α → Int) (x : α) (p : List α) : List α :=
  (p.reverse.dropWhile (fun y => cmp x y < 0)).reverse ++
    x :: (p.reverse.takeWhile (fun y => cmp x y < 0)).reverse

/-- Go's `insertionSortCmpFunc` (the code path taken by `slices.SortFunc`
for slices of length ≤ 12): left-to-right insertion, each element bubbling
down while `cmp(data[j], data[j-1]) < 0`. -/
def insertionSortCmp (cmp : α → α → Int) (l : List α) : List α :=
  l.foldl (fun acc x => insertR cmp x acc) []

/-! ## pkg/jsonpath (Patch / Set engine)

Modelled from the spec: the implementation of package `jsonpath` (`Patch`,
`Set` and the step types) is not in the source snapshot — only its test
file `set_test.go` is — so the engine below follows §4.1 of the
specification (traversal, auto-vivification and extension rules), checked
against the behaviours pinned down in `set_test.go`. -/

/-- A path step (spec §3): `Key`, `Index`, `KeySelector`, `IndexSelector`,
`Wildcard`.  Only `Key`/`Index` may materialize missing entries. -/
inductive Step where
  | key (name : String)
  | index (i : Nat)
  | keySel (names : List String)
  | indexSel (idxs : List Nat)
  | wildcard

/-- A Path is an ordered list of Steps; the empty Path addresses the root. -/
abbrev Path := List Step

/-- The patch callback `fn(exists, key, currentValue) -> (replacement, error)`. -/
abbrev PatchFn := Bool → Value → Value → Except String Value

/-- Modelled from the spec: `Patch(root, path, fn)` walks `path` over
`root` (spec §4.1).  Empty path invokes `fn(true, nil, root)`; `Key` on a
Mapping recurses into the named entry (`Null` if absent) and writes the
result back (auto-vivification); `Key`/`Index` on `Null` initialize an
empty Mapping/Sequence; `Index` beyond the length extends with zero values;
selectors and wildcard only visit present entries and match nothing on
`Null`; a step applied to an incompatible container kind fails. -/
def patch (fn : PatchFn) : Path → Value → Except String Value
  | [], root => fn true .null root
  | .key name :: tail, .null => do
      let sub ← patch fn tail .null
      pure (.map [(name, sub)])
  | .key name :: tail, .map m => do
      let sub ← patch fn tail ((lookupEntry m name).getD .null)
      pure (.map (setEntry m name sub))
  | .key _ :: _, _ => throw "InvalidStep: key step on non-mapping"
  | .index i :: tail, .null => do
      let sub ← patch fn tail .null
      pure (.seq (List.replicate i Value.null ++ [sub]))
  | .index i :: tail, .seq xs =>
      if h : i < xs.length then do
        let sub ← patch fn tail xs[i]
        pure (.seq (xs.set i sub))
      else do
        let sub ← patch fn tail .null
        pure (.seq ((xs ++ List.replicate (i - xs.length) Value.null) ++ [sub]))
  | .index _ :: _, _ => throw "InvalidStep: index step on non-sequence"
  | .keySel _ :: _, .null => pure .null
  | .keySel names :: tail, .map m => do
      let entries ← m.mapM (fun kv =>
        if names.contains kv.1 then do
          let v' ← patch fn tail kv.2
          pure (kv.1, v')
        else
          pure kv)
      pure (.map entries)
  | .keySel _ :: _, _ => throw "InvalidStep: key selector on non-mapping"
  | .indexSel _ :: _, .null => pure .null
  | .indexSel idxs :: tail, .seq xs => do
      let items ← xs.enum.mapM (fun iv =>
        if idxs.contains iv.1 then patch fn tail iv.2 else pure iv.2)
      pure (.seq items)
  | .indexSel _ :: _, _ => throw "InvalidStep: index selector on non-sequence"
  | .wildcard :: _, .null => pure .null
  | .wildcard :: tail, .map m => do
      let entries ← m.mapM (fun kv => do
        let v' ← patch fn tail kv.2
        pure (kv.1, v'))
      pure (.map entries)
  | .wildcard :: tail, .seq xs => do
      let items ← xs.mapM (patch fn tail)
      pure (.seq items)
  | .wildcard :: _, _ => throw "InvalidStep: wildcard on scalar"

/-- Modelled from the spec: `Set(root, path, value) := Patch(root, path, fn)`
with `fn` ignoring `exists`/`key` and always returning `value`. -/
def Set (root : Value) (path : Path) (value : Value) : Except String Value :=
  patch (fun _ _ _ => pure value) path root

/-- Reading a value along a path of `Key`/`Index` steps (the "reading along
`P`" of the spec's round-trip property). -/
def getPath : Path → Value → Option Value
  | [], v => some v
  | .key n :: t, .map m => (lookupEntry m n).bind (getPath t)
  | .index i :: t, .seq xs => xs[i]?.bind (getPath t)
  | _, _ => none

/-- Does the path consist only of `Key` and `Index` steps? -/
def onlyKeyIndex : Path → Bool
  | [] => true
  | .key _ :: t => onlyKeyIndex t
  | .index _ :: t => onlyKeyIndex t
  | _ => false

/-- Modelled from the spec: variant of `patch` for the other possible
reading of the callback's `exists` flag.  §4.1 fixes `fn(true, nil, root)`
only for the empty path and says nothing about the flag at locations that
were absent and materialized during traversal; `patch` keeps it `true`
everywhere, while this variant flips it to `false` as soon as traversal
passes through an absent entry (the reading under which `applyRule`'s
`!exists` branch is live).  Results about missing-location behaviour are
proved under both variants, so they do not depend on this modelling
choice. -/
def patchWithExists (fn : PatchFn) : Path → Bool → Value → Except String Value
  | [], ex, root => fn ex .null root
  | .key name :: tail, _, .null => do
      let sub ← patchWithExists fn tail false .null
      pure (.map [(name, sub)])
  | .key name :: tail, ex, .map m =>
      (match lookupEntry m name with
       | some cur => do
          let sub ← patchWithExists fn tail ex cur
          pure (.map (setEntry m name sub))
       | none => do
          let sub ← patchWithExists fn tail false .null
          pure (.map (setEntry m name sub)))
  | .key _ :: _, _, _ => throw "InvalidStep: key step on non-mapping"
  | .index i :: tail, _, .null => do
      let sub ← patchWithExists fn tail false .null
      pure (.seq (List.replicate i Value.null ++ [sub]))
  | .index i :: tail, ex, .seq xs =>
      if h : i < xs.length then do
        let sub ← patchWithExists fn tail ex xs[i]
        pure (.seq (xs.set i sub))
      else do
        let sub ← patchWithExists fn tail false .null
        pure (.seq ((xs ++ List.replicate (i - xs.length) Value.null) ++ [sub]))
  | .index _ :: _, _, _ => throw "InvalidStep: index step on non-sequence"
  | .keySel _ :: _, _, .null => pure .null
  | .keySel names :: tail, ex, .map m => do
      let entries ← m.mapM (fun kv =>
        if names.contains kv.1 then do
          let v' ← patchWithExists fn tail ex kv.2
          pure (kv.1, v')
        else
          pure kv)
      pure (.map entries)
  | .keySel _ :: _, _, _ => throw "InvalidStep: key selector on non-mapping"
  | .indexSel _ :: _, _, .null => pure .null
  | .indexSel idxs :: tail, ex, .seq xs => do
      let items ← xs.enum.mapM (fun iv =>
        if idxs.contains iv.1 then patchWithExists fn tail ex iv.2 else pure iv.2)
      pure (.seq items)
  | .indexSel _ :: _, _, _ => throw "InvalidStep: index selector on non-sequence"
  | .wildcard :: _, _, .null => pure .null
  | .wildcard :: tail, ex, .map m => do
      let entries ← m.mapM (fun kv => do
        let v' ← patchWithExists fn tail ex kv.2
        pure (kv.1, v'))
      pure (.map entries)
  | .wildcard :: tail, ex, .seq xs => do
      let items ← xs.mapM (patchWithExists fn tail ex)
      pure (.seq items)
  | .wildcard :: _, _, _ => throw "InvalidStep: wildcard on scalar"

/-! ## pkg/sort/object.go -/

/-- `SortingRule` (object.go lines 19-26). -/
structure SortingRule where
  kinds : List String := []
  path : String
  byKey : String := ""
  byValue : Option Bool := none
  rbacRules : Option Bool := none
  rbacSubjects : Option Bool := none

/-- `SortingRule.Validate` (object.go lines 28-51): collect the names of
the configured methods, error unless exactly one is set. -/
def Validate (r : SortingRule) : Except String Unit :=
  let methods : List String :=
    (if r.byKey ≠ "" then ["byKey"] else []) ++
    (if r.byValue.isSome then ["byValue"] else []) ++
    (if r.rbacRules.isSome then ["rbacRules"] else []) ++
    (if r.rbacSubjects.isSome then ["rbacSubjects"] else [])
  match methods with
  | [] => throw "no sorting method specified"
  | [_] => pure ()
  | ms => throw ("cannot specify multiple sorting methods: " ++ String.intercalate " " ms)

/-- Go's `strings.Split` for a single-character separator, on the
character list (so that it computes definitionally): `""` splits to
`[""]`, and every occurrence of `sep` starts a new group. -/
def splitOnChar (sep : Char) : List Char → List (List Char)
  | [] => [[]]
  | c :: rest =>
    match splitOnChar sep rest with
    | [] => [[]]
    | g :: gs => if c = sep then [] :: (g :: gs) else (c :: g) :: gs

/-- One segment of `SortingRule.JSONPath`: a trailing `[]`
(`strings.HasSuffix` / `strings.TrimSuffix`) compiles to
`Key(segment), Wildcard`, otherwise to `Key(segment)`. -/
def compilePart (part : List Char) : List Step :=
  match part.reverse with
  | ']' :: '[' :: restRev => [.key (String.mk restRev.reverse), .wildcard]
  | _ => [.key (String.mk part)]

/-- `SortingRule.JSONPath` (object.go lines 53-67): split the dotted path
on `.` and compile each segment. -/
def JSONPath (r : SortingRule) : Path :=
  (splitOnChar '.' r.path.toList).flatMap compilePart

/-- A manifest: the decoded `map[string]any` held by an
`unstructured.Unstructured`. -/
abbrev Obj := List (String × Value)

/-- `unstructured.GetKind`: the `kind` field as a string, `""` if absent or
not a string. -/
def getKind (obj : Obj) : String :=
  match lookupEntry obj "kind" with
  | some (.str s) => s
  | _ => ""

/-- `unstructured.GetAPIVersion`. -/
def getAPIVersion (obj : Obj) : String :=
  match lookupEntry obj "apiVersion" with
  | some (.str s) => s
  | _ => ""

/-- `unstructured.GetNamespace`: `metadata.namespace` as a string. -/
def getNamespace (obj : Obj) : String :=
  match lookupEntry obj "metadata" with
  | some (.map m) =>
    (match lookupEntry m "namespace" with
     | some (.str s) => s
     | _ => "")
  | _ => ""

/-- `unstructured.GetName`: `metadata.name` as a string. -/
def getName (obj : Obj) : String :=
  match lookupEntry obj "metadata" with
  | some (.map m) =>
    (match lookupEntry m "name" with
     | some (.str s) => s
     | _ => "")
  | _ => ""

/-- `SortingRule.Matches` (object.go lines 69-75). -/
def Matches (r : SortingRule) (obj : Obj) : Bool :=
  if r.kinds.isEmpty then true
  else r.kinds.contains (getKind obj)

/-- `getField` (object.go lines 180-197): the named field of a Mapping as a
string; `none` models the `(_, false)` return. -/
def getField (val : Value) (fieldName : String) : Option String :=
  match val with
  | .map m =>
    (match lookupEntry m fieldName with
     | some (.str s) => some s
     | _ => none)
  | _ => none

/-- The comparator passed to `slices.SortFunc` by `sortSliceByKey`
(object.go lines 163-175): an element without the field compares `-1` as
first operand and makes the comparator return `1` as second operand. -/
def cmpByKey (keyField : String) (a b : Value) : Int :=
  match getField a keyField with
  | none => -1
  | some aKey =>
    match getField b keyField with
    | none => 1
    | some bKey => goCompare aKey bKey

/-- `sortSliceByKey` (object.go lines 162-178).  `slices.SortFunc` is not
stable; for inputs of length ≤ 12 it is exactly insertion sort
(`maxInsertion` in Go's pdqsort), which is what `insertionSortCmp` embeds;
the pdqsort path for longer inputs is not modelled. -/
def sortSliceByKey (items : List Value) (keyField : String) : List Value :=
  insertionSortCmp (cmpByKey keyField) items

/-- The comparator of `sortSliceByValue` (object.go lines 145-157). -/
def cmpByValue (a b : Value) : Int :=
  match a with
  | .str aValue =>
    (match b with
     | .str bValue => goCompare aValue bValue
     | _ => 1)
  | _ => -1

/-- `sortSliceByValue` (object.go lines 144-160), via `slices.SortFunc`
(insertion sort for length ≤ 12, as above). -/
def sortSliceByValue (items : List Value) : List Value :=
  insertionSortCmp cmpByValue items

/-- `rbacv1.PolicyRule` restricted to the fields the comparator reads. -/
structure PolicyRule where
  verbs : List String := []
  apiGroups : List String := []
  resources : List String := []
  resourceNames : List String := []
  nonResourceURLs : List String := []

/-- Decoding a JSON value into a `[]string` field: absent or null decodes
to the empty list, an array of strings decodes elementwise, anything else
fails. -/
def decodeStringList : Option Value → Option (List String)
  | none => some []
  | some .null => some []
  | some (.seq xs) => xs.mapM (fun v =>
      match v with
      | .str s => some s
      | _ => none)
  | some _ => none

/-- The `marshalAs(a, &rbacv1.PolicyRule{})` JSON round-trip (object.go
lines 278-290): succeeds on `null` and on objects whose five list fields
are absent, null, or arrays of strings. -/
def toPolicyRule (v : Value) : Option PolicyRule :=
  match v with
  | .null => some {}
  | .map m => do
      let verbs ← decodeStringList (lookupEntry m "verbs")
      let apiGroups ← decodeStringList (lookupEntry m "apiGroups")
      let resources ← decodeStringList (lookupEntry m "resources")
      let resourceNames ← decodeStringList (lookupEntry m "resourceNames")
      let nonResourceURLs ← decodeStringList (lookupEntry m "nonResourceURLs")
      pure { verbs, apiGroups, resources, resourceNames, nonResourceURLs }
  | _ => none

/-- `compareStringSlices` (object.go lines 248-250): compare the
semicolon-joined lists. -/
def compareStringSlices (a b : List String) : Int :=
  goCompare (String.intercalate ";" a) (String.intercalate ";" b)

/-- The comparator passed to `slices.SortStableFunc` by `sortRBACRules`
(object.go lines 200-243). -/
def cmpRBACRules (a b : Value) : Int :=
  match toPolicyRule a with
  | none => -1
  | some aRule =>
    match toPolicyRule b with
    | none => 1
    | some bRule =>
      let aHasCore := aRule.apiGroups.contains ""
      let bHasCore := bRule.apiGroups.contains ""
      if aHasCore ≠ bHasCore then (if aHasCore then -1 else 1)
      else if compareStringSlices aRule.apiGroups bRule.apiGroups ≠ 0 then
        compareStringSlices aRule.apiGroups bRule.apiGroups
      else if compareStringSlices aRule.resources bRule.resources ≠ 0 then
        compareStringSlices aRule.resources bRule.resources
      else if compareStringSlices aRule.resourceNames bRule.resourceNames ≠ 0 then
        compareStringSlices aRule.resourceNames bRule.resourceNames
      else if compareStringSlices aRule.nonResourceURLs bRule.nonResourceURLs ≠ 0 then
        compareStringSlices aRule.nonResourceURLs bRule.nonResourceURLs
      else if compareStringSlices aRule.verbs bRule.verbs ≠ 0 then
        compareStringSlices aRule.verbs bRule.verbs
      else 0

/-- `sortRBACRules` (object.go lines 199-246): `slices.SortStableFunc`,
embedded as the canonical stable sort `List.mergeSort` ordered by
`cmp a b ≤ 0`. -/
def sortRBACRules (rules : List Value) : List Value :=
  rules.mergeSort (fun a b => decide (cmpRBACRules a b ≤ 0))

/-- `rbacv1.Subject` restricted to the fields the comparator reads
(`ns` stands for the `Namespace` field). -/
structure Subject where
  kind : String := ""
  ns : String := ""
  name : String := ""

/-- Decoding a JSON value into a `string` field: absent or null decodes to
`""`, a string decodes to itself, anything else fails. -/
def decodeString : Option Value → Option String
  | none => some ""
  | some .null => some ""
  | some (.str s) => some s
  | some _ => none

/-- The `marshalAs(a, &rbacv1.Subject{})` JSON round-trip. -/
def toSubject (v : Value) : Option Subject :=
  match v with
  | .null => some {}
  | .map m => do
      let kind ← decodeString (lookupEntry m "kind")
      let ns ← decodeString (lookupEntry m "namespace")
      let name ← decodeString (lookupEntry m "name")
      pure { kind, ns, name }
  | _ => none

/-- The comparator passed to `slices.SortFunc` by `sortRBACSubjects`
(object.go lines 253-273). -/
def cmpRBACSubjects (a b : Value) : Int :=
  match toSubject a with
  | none => -1
  | some aSubject =>
    match toSubject b with
    | none => 1
    | some bSubject =>
      if aSubject.kind ≠ bSubject.kind then goCompare aSubject.kind bSubject.kind
      else if aSubject.ns ≠ bSubject.ns then goCompare aSubject.ns bSubject.ns
      else goCompare aSubject.name bSubject.name

/-- `sortRBACSubjects` (object.go lines 252-276), via `slices.SortFunc`
(insertion sort for length ≤ 12). -/
def sortRBACSubjects (subjects : List Value) : List Value :=
  insertionSortCmp cmpRBACSubjects subjects

/-- `sortSlice` (object.go lines 124-142): dispatch on the configured
method; a rule whose pointers are all nil-or-false reaches the final
error. -/
def sortSlice (items : List Value) (rule : SortingRule) : Except String (List Value) :=
  if rule.byKey ≠ "" then pure (sortSliceByKey items rule.byKey)
  else if rule.byValue.getD false then pure (sortSliceByValue items)
  else if rule.rbacRules.getD false then pure (sortRBACRules items)
  else if rule.rbacSubjects.getD false then pure (sortRBACSubjects items)
  else throw "no supporting sorting mechanism configured"

/-- `applyRule` (object.go lines 104-122): `Patch` with a function that
returns nil when the location does not exist, sorts the value when it is a
Sequence, and returns it unchanged otherwise; the patched root is asserted
back to a mapping. -/
def applyRule (obj : Obj) (rule : SortingRule) : Except String Obj := do
  let patched ← patch
    (fun ex _key val =>
      if ex = false then pure .null
      else
        match val with
        | .seq list => do pure (.seq (← sortSlice list rule))
        | v => pure v)
    (JSONPath rule) (.map obj)
  match patched with
  | .map m => pure m
  | _ => throw "patched value is not a mapping"

/-- `applyRule` under the `patchWithExists` reading of the `exists` flag:
the same callback (whose `!exists` branch now is live and returns nil at
missing locations).  Used to show that missing-location behaviour does not
depend on the flag's modelling. -/
def applyRuleWithExists (obj : Obj) (rule : SortingRule) : Except String Obj := do
  let patched ← patchWithExists
    (fun ex _key val =>
      if ex = false then pure .null
      else
        match val with
        | .seq list => do pure (.seq (← sortSlice list rule))
        | v => pure v)
    (JSONPath rule) true (.map obj)
  match patched with
  | .map m => pure m
  | _ => throw "patched value is not a mapping"

/-- `Object` (object.go lines 83-102): apply each matching rule in order,
threading the patched data; the first failure aborts. -/
def Object (obj : Obj) (rules : List SortingRule) : Except String Obj :=
  rules.foldlM
    (fun data rule => if Matches rule obj then applyRule data rule else pure data)
    obj

/-! ## sort.Objects and the top-level manifest comparator -/

/-- `isCRD` (objects.go): kind is `CustomResourceDefinition`. -/
def isCRD (obj : Obj) : Bool :=
  getKind obj = "CustomResourceDefinition"

/-- `isClusterScoped` (objects.go): empty namespace. -/
def isClusterScoped (obj : Obj) : Bool :=
  getNamespace obj = ""

/-- `schema.ParseGroupVersion`: split on `/`; no slash means empty group,
more than one slash is an error (and `""`/`"/"` both parse to the empty
group/version). -/
def parseGroupVersion (gv : String) : Option (String × String) :=
  match splitOnChar '/' gv.toList with
  | [v] => some ("", String.mk v)
  | [g, v] => some (String.mk g, String.mk v)
  | _ => none

/-- The comparator passed to `slices.SortStableFunc` by `sortObjects`
(main.go lines 127-192) and `sort.Objects` (objects.go lines 26-87):
CRDs first, then cluster-scoped objects, then group / version / kind /
namespace / name; a `ParseGroupVersion` error on either operand returns
-1. -/
def compareObjects (a b : Obj) : Int :=
  if isCRD a ≠ isCRD b then (if isCRD a then -1 else 1)
  else if isClusterScoped a ≠ isClusterScoped b then (if isClusterScoped a then -1 else 1)
  else
    match parseGroupVersion (getAPIVersion a) with
    | none => -1
    | some aGV =>
      match parseGroupVersion (getAPIVersion b) with
      | none => -1
      | some bGV =>
        if aGV.1 ≠ bGV.1 then goCompare aGV.1 bGV.1
        else if aGV.2 ≠ bGV.2 then goCompare aGV.2 bGV.2
        else if getKind a ≠ getKind b then goCompare (getKind a) (getKind b)
        else if getNamespace a ≠ getNamespace b then goCompare (getNamespace a) (getNamespace b)
        else if getName a ≠ getName b then goCompare (getName a) (getName b)
        else 0

/-- The top-level `slices.SortStableFunc` call shared by `main.go`'s
`sortObjects` and `sort.Objects`, embedded as the canonical stable sort
`List.mergeSort` ordered by `compareObjects a b ≤ 0`. -/
def sortObjects (objects : List Obj) : List Obj :=
  objects.mergeSort (fun a b => decide (compareObjects a b ≤ 0))

/-- The per-object loop of `sort.Objects` (objects.go lines 17-24): sort
each object by the rules, wrapping failures; the first failure aborts. -/
def sortEachObject : List Obj → List SortingRule → Except String (List Obj)
  | [], _ => pure []
  | obj :: rest, rules =>
    match Object obj rules with
    | .error e => .error ("failed to sort object: " ++ e)
    | .ok sorted => do
        let rest' ← sortEachObject rest rules
        pure (sorted :: rest')

/-- `sort.Objects` (objects.go lines 16-90): per-object rule application
followed by the stable top-level sort. -/
def Objects (objects : List Obj) (objectRules : List SortingRule) :
    Except String (List Obj) := do
  let sortedObjects ← sortEachObject objects objectRules
  pure (sortObjects sortedObjects)

/-! ## pkg/types (configuration and default rules) -/

/-- `Configuration` (config.go lines 10-14). -/
structure Configuration where
  flattenLists : Bool := false
  objectRules : List SortingRule := []
  disableDefaultObjectRules : Bool := false

/-- `templatePodSpecHolders` (rules.go line 9). -/
def templatePodSpecHolders : List String := ["Deployment", "DaemonSet", "StatefulSet"]

/-- `defaultObjectRules` (rules.go lines 11-89): 8 pod-template `byKey`
rules, 5 RBAC `byValue` rules, one `rbacRules` rule and one `rbacSubjects`
rule. -/
def defaultObjectRules : List SortingRule := [
  { kinds := templatePodSpecHolders, path := "spec.template.spec.containers", byKey := "name" },
  { kinds := templatePodSpecHolders, path := "spec.template.spec.containers[].env", byKey := "name" },
  { kinds := templatePodSpecHolders, path := "spec.template.spec.containers[].volumeMounts", byKey := "name" },
  { kinds := templatePodSpecHolders, path := "spec.template.spec.containers[].ports", byKey := "name" },
  { kinds := templatePodSpecHolders, path := "spec.template.spec.initContainers[].env", byKey := "name" },
  { kinds := templatePodSpecHolders, path := "spec.template.spec.initContainers[].volumeMounts", byKey := "name" },
  { kinds := templatePodSpecHolders, path := "spec.template.spec.initContainers[].ports", byKey := "name" },
  { kinds := templatePodSpecHolders, path := "spec.template.spec.volumes", byKey := "name" },
  { kinds := ["Role", "ClusterRole"], path := "rules[].apiGroups", byValue := some true },
  { kinds := ["Role", "ClusterRole"], path := "rules[].verbs", byValue := some true },
  { kinds := ["Role", "ClusterRole"], path := "rules[].resources", byValue := some true },
  { kinds := ["Role", "ClusterRole"], path := "rules[].resourceNames", byValue := some true },
  { kinds := ["Role", "ClusterRole"], path := "rules[].nonResourceURLs", byValue := some true },
  { kinds := ["Role", "ClusterRole"], path := "rules", rbacRules := some true },
  { kinds := ["RoleBinding", "ClusterRoleBinding"], path := "subjects", rbacSubjects := some true }]

/-- The pure rule-combination step of `LoadConfig` (config.go lines 44-47):
unless disabled, the default rules are prepended to the user rules.  (The
file reading and YAML decoding around it are I/O collaborators, out of
scope.) -/
def applyDefaultObjectRules (cfg : Configuration) : Configuration :=
  if !cfg.disableDefaultObjectRules then
    { cfg with objectRules := defaultObjectRules ++ cfg.objectRules }
  else cfg

/-! ## Claim-side definitions

Definitions below formalize the vocabulary the spec's claims are phrased
in (method counts, sort-key tuples); each is compared against the
source-derived functions above by the theorems. -/

/-- How many of the four sort methods a rule has set: `byKey` non-empty,
`byValue` present, `rbacRules` present, `rbacSubjects` present. -/
def methodCount (r : SortingRule) : Nat :=
  (if r.byKey ≠ "" then 1 else 0) +
  (if r.byValue.isSome then 1 else 0) +
  (if r.rbacRules.isSome then 1 else 0) +
  (if r.rbacSubjects.isSome then 1 else 0)

/-- "Every location addressed by the path exists in the tree and none of
them holds a Sequence": `Key`/`Index` steps require the entry to be
present, selector and wildcard steps range over the present entries they
match (matching nothing on `Null`), and the finally addressed values must
not be Sequences. -/
def noSeqAt : Path → Value → Bool
  | [], v => !v.isSeq
  | .key n :: t, .map m =>
    (match lookupEntry m n with
     | some w => noSeqAt t w
     | none => false)
  | .key _ :: _, _ => false
  | .index i :: t, .seq xs =>
    (match xs[i]? with
     | some w => noSeqAt t w
     | none => false)
  | .index _ :: _, _ => false
  | .keySel _ :: _, .null => true
  | .keySel names :: t, .map m => m.all (fun kv => !names.contains kv.1 || noSeqAt t kv.2)
  | .keySel _ :: _, _ => false
  | .indexSel _ :: _, .null => true
  | .indexSel idxs :: t, .seq xs => xs.enum.all (fun iv => !idxs.contains iv.1 || noSeqAt t iv.2)
  | .indexSel _ :: _, _ => false
  | .wildcard :: _, .null => true
  | .wildcard :: t, .map m => m.all (fun kv => noSeqAt t kv.2)
  | .wildcard :: t, .seq xs => xs.all (noSeqAt t)
  | .wildcard :: _, _ => false

/-- The ordering the C3 claim describes for `byKey(field)`: ascending
lexicographic by the field's string value, with elements that are not
Mappings or lack the field first. -/
def byKeyLe (k : String) (x y : Value) : Prop :=
  match getField x k with
  | none => True
  | some xs =>
    match getField y k with
    | none => False
    | some ys => xs ≤ ys

/-- The C1 claim's sort key for the top-level ordering, as a lexicographic
tuple: `isCRD` descending (encoded as `!isCRD` ascending, `false < true`),
`isClusterScoped` descending, then group, version, kind, namespace, name
ascending.  Group and version come from `ParseGroupVersion` (defaulting to
empty strings; the key is compared only on manifests that parse). -/
def sortKey (o : Obj) :
    Bool ×ₗ (Bool ×ₗ (String ×ₗ (String ×ₗ (String ×ₗ (String ×ₗ String))))) :=
  toLex (!isCRD o,
    toLex (!isClusterScoped o,
      toLex (((parseGroupVersion (getAPIVersion o)).getD ("", "")).1,
        toLex (((parseGroupVersion (getAPIVersion o)).getD ("", "")).2,
          toLex (getKind o,
            toLex (getNamespace o, getName o))))))

/-- The C5 claim's sort key for `rbacRules`: presence of the core group
(`""` in `apiGroups`) first (encoded as `!contains` ascending), then the
semicolon-joined `apiGroups`, `resources`, `resourceNames`,
`nonResourceURLs` and `verbs`, ascending. -/
def rbacKey (v : Value) :
    Bool ×ₗ (String ×ₗ (String ×ₗ (String ×ₗ (String ×ₗ String)))) :=
  toLex (!((toPolicyRule v).getD {}).apiGroups.contains "",
    toLex (String.intercalate ";" ((toPolicyRule v).getD {}).apiGroups,
      toLex (String.intercalate ";" ((toPolicyRule v).getD {}).resources,
        toLex (String.intercalate ";" ((toPolicyRule v).getD {}).resourceNames,
          toLex (String.intercalate ";" ((toPolicyRule v).getD {}).nonResourceURLs,
            String.intercalate ";" ((toPolicyRule v).getD {}).verbs)))))

/-! ## Theorems -/

/-- Trichotomy for the character-list comparator: it returns -1, 0 or 1,
characterized by the lexicographic order. -/
theorem goCompareChars_spec :
    ∀ u v : List Char,
      (goCompareChars u v = -1 ∧ List.Lex (· < ·) u v) ∨
      (goCompareChars u v = 0 ∧ u = v) ∨
      (goCompareChars u v = 1 ∧ List.Lex (· < ·) v u) := by
  intro u
  induction u with
  | nil =>
    intro v
    cases v with
    | nil => exact Or.inr (Or.inl ⟨rfl, rfl⟩)
    | cons b bs => exact Or.inl ⟨rfl, List.Lex.nil⟩
  | cons a as ih =>
    intro v
    cases v with
    | nil => exact Or.inr (Or.inr ⟨rfl, List.Lex.nil⟩)
    | cons b bs =>
      by_cases hab : a < b
      · exact Or.inl ⟨by simp [goCompareChars, hab], List.Lex.rel hab⟩
      · by_cases hba : b < a
        · refine Or.inr (Or.inr ⟨?_, List.Lex.rel hba⟩)
          simp [goCompareChars, hab, hba]
        · have heq : a = b := le_antisymm (not_lt.mp hba) (not_lt.mp hab)
          subst heq
          rcases ih bs with ⟨h1, h2⟩ | ⟨h1, h2⟩ | ⟨h1, h2⟩
          · exact Or.inl ⟨by simp [goCompareChars, hab, h1], List.Lex.cons h2⟩
          · exact Or.inr (Or.inl ⟨by simp [goCompareChars, hab, h1], by rw [h2]⟩)
          · exact Or.inr (Or.inr ⟨by simp [goCompareChars, hab, h1], List.Lex.cons h2⟩)

/-- `strings.Compare a b ≤ 0` is `a ≤ b`. -/
theorem goCompare_le_zero_iff {a b : String} : goCompare a b ≤ 0 ↔ a ≤ b := by
  have hlt : a < b ↔ List.Lex (· < ·) a.data b.data := String.lt_iff_toList_lt
  have hlt2 : b < a ↔ List.Lex (· < ·) b.data a.data := String.lt_iff_toList_lt
  have hdata : a.data = b.data → a = b := by
    intro h
    cases a
    cases b
    exact congrArg String.mk h
  rcases goCompareChars_spec a.data b.data with ⟨h1, h2⟩ | ⟨h1, h2⟩ | ⟨h1, h2⟩
  · simp only [goCompare, h1]
    exact iff_of_true (by norm_num) (le_of_lt (hlt.mpr h2))
  · simp only [goCompare, h1]
    exact iff_of_true (by norm_num) (le_of_eq (hdata h2))
  · simp only [goCompare, h1]
    exact iff_of_false (by norm_num) (not_le.mpr (hlt2.mpr h2))

/-- `strings.Compare a b < 0` is `a < b`. -/
theorem goCompare_lt_zero_iff {a b : String} : goCompare a b < 0 ↔ a < b := by
  have hlt : a < b ↔ List.Lex (· < ·) a.data b.data := String.lt_iff_toList_lt
  have hlt2 : b < a ↔ List.Lex (· < ·) b.data a.data := String.lt_iff_toList_lt
  have hdata : a.data = b.data → a = b := by
    intro h
    cases a
    cases b
    exact congrArg String.mk h
  rcases goCompareChars_spec a.data b.data with ⟨h1, h2⟩ | ⟨h1, h2⟩ | ⟨h1, h2⟩
  · simp only [goCompare, h1]
    exact iff_of_true (by norm_num) (hlt.mpr h2)
  · simp only [goCompare, h1]
    refine iff_of_false (by norm_num) ?_
    rw [hdata h2]
    exact lt_irrefl b
  · simp only [goCompare, h1]
    exact iff_of_false (by norm_num) (not_lt.mpr (le_of_lt (hlt2.mpr h2)))

/-- `strings.Compare a b = 0` is `a = b`. -/
theorem goCompare_eq_zero_iff {a b : String} : goCompare a b = 0 ↔ a = b := by
  have hlt : a < b ↔ List.Lex (· < ·) a.data b.data := String.lt_iff_toList_lt
  have hlt2 : b < a ↔ List.Lex (· < ·) b.data a.data := String.lt_iff_toList_lt
  have hdata : a.data = b.data → a = b := by
    intro h
    cases a
    cases b
    exact congrArg String.mk h
  rcases goCompareChars_spec a.data b.data with ⟨h1, h2⟩ | ⟨h1, h2⟩ | ⟨h1, h2⟩
  · simp only [goCompare, h1]
    refine iff_of_false (by norm_num) ?_
    intro he
    have hab : a < b := hlt.mpr h2
    rw [he] at hab
    exact lt_irrefl b hab
  · exact iff_of_true (by simp [goCompare, h1]) (hdata h2)
  · simp only [goCompare, h1]
    refine iff_of_false (by norm_num) ?_
    intro he
    have hba : b < a := hlt2.mpr h2
    rw [he] at hba
    exact lt_irrefl b hba

/-- `takeWhile` over an append whose second part consists of failing
elements stops inside the first part. -/
theorem takeWhile_append_allFalse {α : Type} (p : α → Bool) :
    ∀ (l r : List α), (∀ y ∈ r, p y = false) →
      (l ++ r).takeWhile p = l.takeWhile p := by
  intro l r h
  induction l with
  | nil =>
    cases r with
    | nil => rfl
    | cons y ys =>
      simp [List.takeWhile_cons, h y (List.mem_cons_self y ys)]
  | cons a l' ih =>
    cases hp : p a with
    | true => simp [List.takeWhile_cons, hp, ih]
    | false => simp [List.takeWhile_cons, hp]

/-- `dropWhile` counterpart of `takeWhile_append_allFalse`. -/
theorem dropWhile_append_allFalse {α : Type} (p : α → Bool) :
    ∀ (l r : List α), (∀ y ∈ r, p y = false) →
      (l ++ r).dropWhile p = l.dropWhile p ++ r := by
  intro l r h
  induction l with
  | nil =>
    cases r with
    | nil => rfl
    | cons y ys =>
      simp [List.dropWhile_cons, h y (List.mem_cons_self y ys)]
  | cons a l' ih =>
    cases hp : p a with
    | true => simp [List.dropWhile_cons, hp, ih]
    | false => simp [List.dropWhile_cons, hp]

/-- The head of a non-empty `dropWhile` residue fails the predicate. -/
theorem dropWhile_head_false {α : Type} (p : α → Bool) :
    ∀ (l : List α) (d : α) (ds : List α), l.dropWhile p = d :: ds → p d = false := by
  intro l
  induction l with
  | nil => intro d ds h; simp at h
  | cons a l' ih =>
    intro d ds h
    cases hp : p a with
    | true =>
      rw [List.dropWhile_cons, if_pos (by simp [hp])] at h
      exact ih d ds h
    | false =>
      rw [List.dropWhile_cons, if_neg (by simp [hp])] at h
      cases h
      exact hp

/-- C7: `Validate` returns no error iff exactly one of the four sort
methods is set; with zero or several methods it returns an error. -/
theorem validate_ok_iff_exactly_one_method :
    ∀ r : SortingRule,
      (Validate r = Except.ok () ↔ methodCount r = 1) ∧
      (methodCount r ≠ 1 → ∃ e, Validate r = Except.error e) := by
  intro r
  have key : Validate r = Except.ok () ↔ methodCount r = 1 := by
    unfold Validate methodCount
    by_cases h1 : r.byKey ≠ "" <;>
      by_cases h2 : r.byValue.isSome <;>
        by_cases h3 : r.rbacRules.isSome <;>
          by_cases h4 : r.rbacSubjects.isSome <;>
            simp [h1, h2, h3, h4] <;> rfl
  refine ⟨key, fun hne => ?_⟩
  cases hv : Validate r with
  | ok u => cases u; exact absurd (key.mp hv) hne
  | error e => exact ⟨e, rfl⟩

/-- C7 witness: the first default rule has exactly one method set and
validates. -/
theorem validate_ok_iff_exactly_one_method_witness :
    (Validate { path := "spec", byKey := "name" } = Except.ok () ↔
      methodCount { path := "spec", byKey := "name" } = 1) ∧
    (methodCount { path := "spec", byKey := "name" } ≠ 1 →
      ∃ e, Validate { path := "spec", byKey := "name" } = Except.error e) :=
  validate_ok_iff_exactly_one_method { path := "spec", byKey := "name" }

/-- C8 counterexample: the built-in default rule set prepended by
`LoadConfig` has 15 rules, not 8. -/
theorem default_rules_counterexample :
    (applyDefaultObjectRules {}).objectRules.length = 15 ∧ (15 : Nat) ≠ 8 :=
  ⟨rfl, by decide⟩

/-- C8 (amended): unless `disableDefaultObjectRules` is set, loading a
configuration prepends the built-in default set of exactly 15 rules before
the user rules; there is no flag choosing prepend versus append — user
rules always follow the defaults. -/
theorem loadConfig_prepends_default_rules :
    ∀ cfg : Configuration,
      (applyDefaultObjectRules cfg).objectRules =
        (if cfg.disableDefaultObjectRules then cfg.objectRules
         else defaultObjectRules ++ cfg.objectRules) ∧
      defaultObjectRules.length = 15 := by
  intro cfg
  refine ⟨?_, rfl⟩
  unfold applyDefaultObjectRules
  cases h : cfg.disableDefaultObjectRules <;> simp [h]

/-- C10: a rule whose `byValue` (or `rbacRules`, or `rbacSubjects`) pointer
is present but `false` passes `Validate`, yet `sortSlice` fails on it with
"no supporting sorting mechanism configured", so a whole `Objects` run over
a manifest whose addressed value is a Sequence fails. -/
theorem false_method_rule_validates_but_cannot_apply :
    Validate { path := "rules", byValue := some false } = Except.ok () ∧
    Validate { path := "rules", rbacRules := some false } = Except.ok () ∧
    Validate { path := "subjects", rbacSubjects := some false } = Except.ok () ∧
    (∀ items, sortSlice items { path := "rules", byValue := some false } =
      Except.error "no supporting sorting mechanism configured") ∧
    (∀ items, sortSlice items { path := "rules", rbacRules := some false } =
      Except.error "no supporting sorting mechanism configured") ∧
    (∀ items, sortSlice items { path := "subjects", rbacSubjects := some false } =
      Except.error "no supporting sorting mechanism configured") ∧
    Objects [[("kind", Value.str "Role"), ("rules", Value.seq [Value.null])]]
        [{ path := "rules", byValue := some false }] =
      Except.error "failed to sort object: no supporting sorting mechanism configured" :=
  ⟨rfl, rfl, rfl, fun _ => rfl, fun _ => rfl, fun _ => rfl, rfl⟩

/-- C4 counterexample: with CRD and cluster-scope status equal, comparing a
manifest with parseable `apiVersion` (left) against one whose `apiVersion`
fails to parse (right) yields -1 — the parseable manifest sorts first,
contradicting "the failing manifest sorts first regardless of which
operand it is". -/
theorem compareObjects_parse_failure_counterexample :
    compareObjects [("apiVersion", Value.str "v1")] [("apiVersion", Value.str "a/b/c")] = -1 ∧
    ¬ (0 < compareObjects [("apiVersion", Value.str "v1")] [("apiVersion", Value.str "a/b/c")]) :=
  ⟨rfl, by decide⟩

/-- C4 (amended): after the CRD and cluster-scope criteria tie, the
comparator returns -1 whenever either operand's `apiVersion` fails to
parse; so a failing manifest is ranked first only when it is the left
operand — with a failing right operand the parseable left manifest is
ranked first. -/
theorem compareObjects_parse_failure (a b : Obj)
    (h1 : isCRD a = isCRD b) (h2 : isClusterScoped a = isClusterScoped b)
    (h3 : (parseGroupVersion (getAPIVersion a)).isNone ∨
          (parseGroupVersion (getAPIVersion b)).isNone) :
    compareObjects a b = -1 := by
  unfold compareObjects
  rw [h1, h2]
  simp only [ne_eq, not_true_eq_false, if_false]
  rcases h3 with h | h
  · rw [Option.isNone_iff_eq_none] at h
    rw [h]
  · rw [Option.isNone_iff_eq_none] at h
    cases ha : parseGroupVersion (getAPIVersion a) with
    | none => rfl
    | some aGV => rw [h]

/-- C4 witness: a Namespace-less pair with `apiVersion` `v1` (parses) on
the left and `a/b/c` (fails) on the right. -/
theorem compareObjects_parse_failure_witness :
    compareObjects [("apiVersion", Value.str "v1")] [("apiVersion", Value.str "a/b/x")] = -1 :=
  compareObjects_parse_failure _ _ rfl rfl (Or.inr rfl)

/-- Post-composing an `Except` computation with a pure continuation does
not change whether it succeeds. -/
theorem isOk_bind_pure {ε α β : Type} (x : Except ε α) (f : α → β) :
    (do let r ← x; pure (f r) : Except ε β).isOk = x.isOk := by
  cases x <;> rfl

/-- `sortEachObject` succeeds iff every per-object `Object` call does. -/
theorem sortEachObject_ok_iff (rules : List SortingRule) :
    ∀ l : List Obj,
      (sortEachObject l rules).isOk = true ↔ ∀ o ∈ l, (Object o rules).isOk = true := by
  intro l
  induction l with
  | nil => exact iff_of_true rfl (by simp)
  | cons o rest ih =>
    cases h : Object o rules with
    | error e =>
      apply iff_of_false
      · simp [sortEachObject, h, Except.isOk, Except.toBool]
      · intro hall
        have ho := hall o (List.mem_cons_self o rest)
        rw [h] at ho
        simp [Except.isOk, Except.toBool] at ho
    | ok s =>
      have step : sortEachObject (o :: rest) rules =
          (do let rest' ← sortEachObject rest rules; pure (s :: rest')) := by
        simp [sortEachObject, h]
      rw [step, isOk_bind_pure]
      rw [ih]
      constructor
      · intro hrest o' ho'
        rcases List.mem_cons.mp ho' with rfl | hmem
        · rw [h]; rfl
        · exact hrest o' hmem
      · intro hall o' ho'
        exact hall o' (List.mem_cons_of_mem o ho')

/-- C9: `Objects` succeeds iff applying the rules to every manifest
succeeds — any per-object rule failure makes the whole run return an
error, never a partially-sorted list. -/
theorem objects_ok_iff_every_object_ok :
    ∀ (objects : List Obj) (rules : List SortingRule),
      (Objects objects rules).isOk = true ↔
        ∀ o ∈ objects, (Object o rules).isOk = true := by
  intro objects rules
  have : (Objects objects rules).isOk = (sortEachObject objects rules).isOk := by
    unfold Objects
    exact isOk_bind_pure _ _
  rw [this]
  exact sortEachObject_ok_iff rules objects

/-- C6: for every path of `Key`/`Index` steps and every value, `Set` on a
`Null` root succeeds and reading back along the path returns the value. -/
theorem set_null_roundtrip :
    ∀ (P : Path) (V : Value), onlyKeyIndex P = true →
      ∃ out, Set Value.null P V = Except.ok out ∧ getPath P out = some V := by
  intro P V hP
  induction P with
  | nil => exact ⟨V, rfl, rfl⟩
  | cons s t ih =>
    cases s with
    | key n =>
      obtain ⟨out, hset, hget⟩ := ih hP
      rw [show Set Value.null t V = patch (fun _ _ _ => pure V) t Value.null from rfl] at hset
      refine ⟨.map [(n, out)], ?_, ?_⟩
      · rw [show Set Value.null (Step.key n :: t) V =
            (do let sub ← patch (fun _ _ _ => pure V) t Value.null
                pure (Value.map [(n, sub)])) from rfl]
        rw [hset]
        rfl
      · simp [getPath, lookupEntry, hget]
    | index i =>
      obtain ⟨out, hset, hget⟩ := ih hP
      rw [show Set Value.null t V = patch (fun _ _ _ => pure V) t Value.null from rfl] at hset
      refine ⟨.seq (List.replicate i Value.null ++ [out]), ?_, ?_⟩
      · rw [show Set Value.null (Step.index i :: t) V =
            (do let sub ← patch (fun _ _ _ => pure V) t Value.null
                pure (Value.seq (List.replicate i Value.null ++ [sub]))) from rfl]
        rw [hset]
        rfl
      · have hidx : (List.replicate i Value.null ++ [out])[i]? = some out := by
          rw [List.getElem?_append_right (by simp)]
          simp
        simp [getPath, hidx, hget]
    | keySel names => simp [onlyKeyIndex] at hP
    | indexSel idxs => simp [onlyKeyIndex] at hP
    | wildcard => simp [onlyKeyIndex] at hP

/-- C6 witness: setting `"bar"` under `foo[2]` in a `Null` root succeeds
and reads back. -/
theorem set_null_roundtrip_witness :
    onlyKeyIndex [Step.key "foo", Step.index 2] = true ∧
    ∃ out, Set Value.null [Step.key "foo", Step.index 2] (Value.str "bar") = Except.ok out ∧
      getPath [Step.key "foo", Step.index 2] out = some (Value.str "bar") :=
  ⟨rfl, set_null_roundtrip [Step.key "foo", Step.index 2] (Value.str "bar") rfl⟩

/-- Writing back the value an existing key already holds leaves the map
unchanged. -/
theorem setEntry_lookup_self :
    ∀ (m : List (String × Value)) (n : String) (w : Value),
      lookupEntry m n = some w → setEntry m n w = m := by
  intro m n w h
  induction m with
  | nil => simp [lookupEntry] at h
  | cons kv rest ih =>
    by_cases hk : kv.1 = n
    · have : lookupEntry (kv :: rest) n = some kv.2 := by
        cases kv
        simp_all [lookupEntry]
      rw [this] at h
      cases kv
      simp_all [setEntry]
    · cases kv with
    | mk k v =>
      simp only [lookupEntry, if_neg hk] at h
      simp [setEntry, hk, ih h]

/-- Replacing an element of a list by the value it already holds leaves the
list unchanged. -/
theorem list_set_self :
    ∀ (xs : List Value) (i : Nat) (w : Value), xs[i]? = some w → xs.set i w = xs := by
  intro xs
  induction xs with
  | nil => intro i w h; simp at h
  | cons x rest ih =>
    intro i w h
    cases i with
    | zero => simp at h; simp [List.set, h]
    | succ j =>
      simp only [List.getElem?_cons_succ] at h
      simp [List.set, ih j w h]

/-- Pointwise-pure `mapM` over `Except`. -/
theorem mapM_ok_of_pointwise {A B : Type} :
    ∀ (l : List A) (g : A → Except String B) (f : A → B),
      (∀ x ∈ l, g x = Except.ok (f x)) → l.mapM g = Except.ok (l.map f) := by
  intro l g f h
  induction l with
  | nil => rfl
  | cons x rest ih =>
    rw [List.mapM_cons]
    rw [h x (List.mem_cons_self x rest), ih (fun y hy => h y (List.mem_cons_of_mem x hy))]
    rfl

/-- If every location a path addresses exists and holds a non-Sequence,
then `patch` with a callback that keeps non-Sequences intact returns the
tree unchanged. -/
theorem patch_noSeqAt_unchanged (fn : PatchFn)
    (hfn : ∀ (k v : Value), v.isSeq = false → fn true k v = pure v) :
    ∀ (path : Path) (v : Value), noSeqAt path v = true → patch fn path v = Except.ok v := by
  intro path
  induction path with
  | nil =>
    intro v hv
    simp only [noSeqAt, Bool.not_eq_true'] at hv
    exact hfn Value.null v hv
  | cons s t ih =>
    intro v hv
    cases s with
    | key n =>
      cases v with
      | map m =>
        cases hl : lookupEntry m n with
        | none => simp [noSeqAt, hl] at hv
        | some w =>
          have hw : noSeqAt t w = true := by simpa [noSeqAt, hl] using hv
          rw [show patch fn (Step.key n :: t) (Value.map m) =
              (do let sub ← patch fn t ((lookupEntry m n).getD Value.null)
                  pure (Value.map (setEntry m n sub))) from rfl]
          rw [hl]
          simp only [Option.getD_some]
          rw [ih w hw]
          simp [setEntry_lookup_self m n w hl]
      | null => simp [noSeqAt] at hv
      | str s => simp [noSeqAt] at hv
      | num x => simp [noSeqAt] at hv
      | bool b => simp [noSeqAt] at hv
      | seq xs => simp [noSeqAt] at hv
    | index i =>
      cases v with
      | seq xs =>
        cases hl : xs[i]? with
        | none => simp [noSeqAt, hl] at hv
        | some w =>
          have hw : noSeqAt t w = true := by simpa [noSeqAt, hl] using hv
          have hlen : i < xs.length := by
            by_contra hge
            rw [List.getElem?_eq_none (by omega)] at hl
            cases hl
          have hxi : xs[i] = w := by
            have := List.getElem?_eq_getElem hlen
            rw [this] at hl
            exact (Option.some.injEq _ _).mp hl
          simp only [patch]
          rw [dif_pos hlen]
          have hsub : patch fn t xs[i] = Except.ok w := by
            rw [hxi]
            exact ih w hw
          rw [hsub]
          simp [list_set_self xs i w hl]
      | null => simp [noSeqAt] at hv
      | str s => simp [noSeqAt] at hv
      | num x => simp [noSeqAt] at hv
      | bool b => simp [noSeqAt] at hv
      | map m => simp [noSeqAt] at hv
    | keySel names =>
      cases v with
      | null => rfl
      | map m =>
        have hall : ∀ kv ∈ m, kv.1 ∉ names ∨ noSeqAt t kv.2 = true := by
          simpa [noSeqAt, List.all_eq_true] using hv
        rw [show patch fn (Step.keySel names :: t) (Value.map m) =
            (do let entries ← m.mapM (fun kv =>
                  if names.contains kv.1 then do
                    let v' ← patch fn t kv.2
                    pure (kv.1, v')
                  else
                    pure kv)
                pure (Value.map entries)) from rfl]
        rw [mapM_ok_of_pointwise m _ id ?_]
        · simp
        · intro kv hkv
          split
          · next hc =>
              replace hc : kv.1 ∈ names := by simpa using hc
              have hs : noSeqAt t kv.2 = true :=
                (hall kv hkv).resolve_left (not_not_intro hc)
              rw [ih kv.2 hs]
              rfl
          · next hc => rfl
      | str s => simp [noSeqAt] at hv
      | num x => simp [noSeqAt] at hv
      | bool b => simp [noSeqAt] at hv
      | seq xs => simp [noSeqAt] at hv
    | indexSel idxs =>
      cases v with
      | null => rfl
      | seq xs =>
        have hall : ∀ iv ∈ xs.enum, iv.1 ∉ idxs ∨ noSeqAt t iv.2 = true := by
          simpa [noSeqAt, List.all_eq_true] using hv
        rw [show patch fn (Step.indexSel idxs :: t) (Value.seq xs) =
            (do let items ← xs.enum.mapM (fun iv =>
                  if idxs.contains iv.1 then patch fn t iv.2 else pure iv.2)
                pure (Value.seq items)) from rfl]
        rw [mapM_ok_of_pointwise xs.enum _ Prod.snd ?_]
        · simp [List.enum_map_snd]
        · intro iv hiv
          split
          · next hc =>
              replace hc : iv.1 ∈ idxs := by simpa using hc
              have hs : noSeqAt t iv.2 = true :=
                (hall iv hiv).resolve_left (not_not_intro hc)
              exact ih iv.2 hs
          · next hc => rfl
      | str s => simp [noSeqAt] at hv
      | num x => simp [noSeqAt] at hv
      | bool b => simp [noSeqAt] at hv
      | map m => simp [noSeqAt] at hv
    | wildcard =>
      cases v with
      | null => rfl
      | map m =>
        have hall : ∀ kv ∈ m, noSeqAt t kv.2 = true := by
          simpa [noSeqAt, List.all_eq_true] using hv
        rw [show patch fn (Step.wildcard :: t) (Value.map m) =
            (do let entries ← m.mapM (fun kv => do
                  let v' ← patch fn t kv.2
                  pure (kv.1, v'))
                pure (Value.map entries)) from rfl]
        rw [mapM_ok_of_pointwise m _ id ?_]
        · simp
        · intro kv hkv
          rw [ih kv.2 (hall kv hkv)]
          rfl
      | seq xs =>
        have hall : ∀ x ∈ xs, noSeqAt t x = true := by
          simpa [noSeqAt, List.all_eq_true] using hv
        rw [show patch fn (Step.wildcard :: t) (Value.seq xs) =
            (do let items ← xs.mapM (patch fn t)
                pure (Value.seq items)) from rfl]
        rw [mapM_ok_of_pointwise xs _ id ?_]
        · simp
        · intro x hx
          exact ih x (hall x hx)
      | str s => simp [noSeqAt] at hv
      | num x => simp [noSeqAt] at hv
      | bool b => simp [noSeqAt] at hv

/-- C2 counterexample: on the empty manifest, a rule with path `spec`
addresses a location that does not exist, and applying it does NOT leave
the tree unchanged: the key is materialized with a `Null` value.  The same
output arises under both readings of the callback's `exists` flag — with
`exists = true` the callback hands the materialized `Null` back unchanged,
with `exists = false` its `!exists` branch returns nil — because §4.1's
`Key`-on-Mapping case writes the result back unconditionally either way. -/
theorem applyRule_materializes_missing_location :
    applyRule [] { path := "spec", byKey := "name" } = Except.ok [("spec", Value.null)] ∧
    applyRuleWithExists [] { path := "spec", byKey := "name" } =
      Except.ok [("spec", Value.null)] ∧
    ([("spec", Value.null)] : Obj) ≠ ([] : Obj) :=
  ⟨rfl, rfl, by simp⟩

/-- C2 (amended): if every location addressed by the rule's compiled path
exists in the manifest and none of them holds a Sequence, applying the rule
leaves the manifest unchanged.  (When the addressed location does not
exist, `Key` steps materialize missing mappings and store `Null` there, so
the tree changes.) -/
theorem applyRule_unchanged_of_noSeqAt :
    ∀ (obj : Obj) (rule : SortingRule),
      noSeqAt (JSONPath rule) (Value.map obj) = true →
      applyRule obj rule = Except.ok obj := by
  intro obj rule h
  unfold applyRule
  rw [patch_noSeqAt_unchanged _ ?_ (JSONPath rule) (Value.map obj) h]
  · rfl
  · intro k v hv
    cases v <;> simp_all [Value.isSeq]

/-- C2 witness: a manifest whose `spec` holds a scalar is untouched by a
rule addressing `spec`. -/
theorem applyRule_unchanged_witness :
    applyRule [("spec", Value.str "x")] { path := "spec", byKey := "name" } =
      Except.ok [("spec", Value.str "x")] :=
  applyRule_unchanged_of_noSeqAt [("spec", Value.str "x")] { path := "spec", byKey := "name" } rfl

/-- `takeWhile` of an all-satisfying list is the list itself. -/
theorem takeWhile_all {α : Type} (p : α → Bool) :
    ∀ l : List α, (∀ y ∈ l, p y = true) → l.takeWhile p = l := by
  intro l h
  induction l with
  | nil => rfl
  | cons a l' ih =>
    rw [List.takeWhile_cons, if_pos (by simp [h a (List.mem_cons_self a l')])]
    rw [ih (fun y hy => h y (List.mem_cons_of_mem a hy))]

/-- `dropWhile` of an all-satisfying list is empty. -/
theorem dropWhile_all {α : Type} (p : α → Bool) :
    ∀ l : List α, (∀ y ∈ l, p y = true) → l.dropWhile p = [] := by
  intro l h
  induction l with
  | nil => rfl
  | cons a l' ih =>
    rw [List.dropWhile_cons, if_pos (by simp [h a (List.mem_cons_self a l')])]
    exact ih (fun y hy => h y (List.mem_cons_of_mem a hy))

/-- An element that jumps everything is inserted at the front. -/
theorem insertR_eq_cons {α : Type} (cmp : α → α → Int) (x : α) (p : List α)
    (h : ∀ y ∈ p, cmp x y < 0) : insertR cmp x p = x :: p := by
  unfold insertR
  have hall : ∀ y ∈ p.reverse, (fun y => decide (cmp x y < 0)) y = true := by
    intro y hy
    simp [h y (List.mem_reverse.mp hy)]
  rw [takeWhile_all _ p.reverse hall, dropWhile_all _ p.reverse hall]
  simp

/-- An element that stops at a block of non-jumpable elements `R` placed in
front is inserted within the remaining block `K`. -/
theorem insertR_append {α : Type} (cmp : α → α → Int) (x : α) (R K : List α)
    (h : ∀ y ∈ R, ¬ (cmp x y < 0)) :
    insertR cmp x (R ++ K) = R ++ insertR cmp x K := by
  unfold insertR
  have hfalse : ∀ y ∈ R.reverse, (fun y => decide (cmp x y < 0)) y = false := by
    intro y hy
    simp [h y (List.mem_reverse.mp hy)]
  rw [List.reverse_append]
  rw [takeWhile_append_allFalse _ _ _ hfalse, dropWhile_append_allFalse _ _ _ hfalse]
  simp [List.append_assoc]

/-- `insertR` is a permutation of consing. -/
theorem insertR_perm {α : Type} (cmp : α → α → Int) (x : α) (p : List α) :
    (insertR cmp x p).Perm (x :: p) := by
  have hsplit :
      (p.reverse.dropWhile (fun y => decide (cmp x y < 0))).reverse ++
        (p.reverse.takeWhile (fun y => decide (cmp x y < 0))).reverse = p := by
    rw [← List.reverse_append, List.takeWhile_append_dropWhile, List.reverse_reverse]
  have h1 : (insertR cmp x p).Perm
      (x :: ((p.reverse.dropWhile (fun y => decide (cmp x y < 0))).reverse ++
        (p.reverse.takeWhile (fun y => decide (cmp x y < 0))).reverse)) := by
    unfold insertR
    exact List.perm_middle
  rw [hsplit] at h1
  exact h1

/-- Whatever is inserted, the old arrangement survives as a sublist. -/
theorem sublist_insertR {α : Type} (cmp : α → α → Int) (x : α) (p : List α) :
    p.Sublist (insertR cmp x p) := by
  unfold insertR
  have hsplit :
      (p.reverse.dropWhile (fun y => decide (cmp x y < 0))).reverse ++
        (p.reverse.takeWhile (fun y => decide (cmp x y < 0))).reverse = p := by
    rw [← List.reverse_append, List.takeWhile_append_dropWhile, List.reverse_reverse]
  conv_lhs => rw [← hsplit]
  exact List.Sublist.append_left (List.sublist_cons_self x _) _

/-- Folding `insertR` over a list permutes the accumulated elements. -/
theorem foldl_insertR_perm {α : Type} (cmp : α → α → Int) :
    ∀ (l acc : List α), (l.foldl (fun a x => insertR cmp x a) acc).Perm (acc ++ l) := by
  intro l
  induction l with
  | nil => intro acc; simp
  | cons x l' ih =>
    intro acc
    rw [List.foldl_cons]
    refine (ih (insertR cmp x acc)).trans ?_
    refine ((insertR_perm cmp x acc).append_right l').trans ?_
    exact List.perm_middle.symm

/-- The embedded `slices.SortFunc` output is a permutation of its input. -/
theorem insertionSortCmp_perm {α : Type} (cmp : α → α → Int) (l : List α) :
    (insertionSortCmp cmp l).Perm l := by
  have h := foldl_insertR_perm cmp l []
  simpa [insertionSortCmp] using h

/-- A keyless first operand makes the byKey comparator return -1. -/
theorem cmpByKey_keyless_left {k : String} {x : Value} (y : Value)
    (hx : getField x k = none) : cmpByKey k x y = -1 := by
  simp [cmpByKey, hx]

/-- A keyed first operand against a keyless second returns 1. -/
theorem cmpByKey_keyed_keyless {k : String} {x y : Value} {s : String}
    (hx : getField x k = some s) (hy : getField y k = none) : cmpByKey k x y = 1 := by
  simp [cmpByKey, hx, hy]

/-- Two keyed operands compare by their field strings. -/
theorem cmpByKey_keyed {k : String} {x y : Value} {s t : String}
    (hx : getField x k = some s) (hy : getField y k = some t) :
    cmpByKey k x y = goCompare s t := by
  simp [cmpByKey, hx, hy]

/-- Structure of the byKey insertion sort: keyless elements accumulate at
the front in reverse encounter order, keyed elements are insertion-sorted
behind them. -/
theorem foldl_byKey_split (k : String) :
    ∀ (l R K : List Value),
      (∀ y ∈ R, getField y k = none) →
      (∀ y ∈ K, (getField y k).isSome = true) →
      List.foldl (fun acc x => insertR (cmpByKey k) x acc) (R ++ K) l =
        ((l.filter (fun v => (getField v k).isNone)).reverse ++ R) ++
          List.foldl (fun acc x => insertR (cmpByKey k) x acc) K
            (l.filter (fun v => (getField v k).isSome)) := by
  intro l
  induction l with
  | nil => intro R K hR hK; simp
  | cons x l' ih =>
    intro R K hR hK
    rw [List.foldl_cons]
    cases hx : getField x k with
    | none =>
      have hstep : insertR (cmpByKey k) x (R ++ K) = (x :: R) ++ K := by
        rw [insertR_eq_cons (cmpByKey k) x (R ++ K) ?_]
        · rfl
        · intro y hy
          rw [cmpByKey_keyless_left y hx]
          norm_num
      rw [hstep]
      rw [ih (x :: R) K ?_ hK]
      · have hfx : (getField x k).isNone = true := by simp [hx]
        have hfx2 : (getField x k).isSome = false := by simp [hx]
        simp [List.filter_cons, hfx, hfx2, List.append_assoc]
      · intro y hy
        rcases List.mem_cons.mp hy with rfl | hmem
        · exact hx
        · exact hR y hmem
    | some s =>
      have hstep : insertR (cmpByKey k) x (R ++ K) = R ++ insertR (cmpByKey k) x K := by
        apply insertR_append
        intro y hy
        rw [cmpByKey_keyed_keyless hx (hR y hy)]
        norm_num
      rw [hstep]
      rw [ih R (insertR (cmpByKey k) x K) hR ?_]
      · have hfx : (getField x k).isNone = false := by simp [hx]
        have hfx2 : (getField x k).isSome = true := by simp [hx]
        simp [List.filter_cons, hfx, hfx2]
      · intro y hy
        have : y ∈ x :: K := (insertR_perm (cmpByKey k) x K).mem_iff.mp hy
        rcases List.mem_cons.mp this with rfl | hmem
        · simp [hx]
        · exact hK y hmem

/-- The two halves of `sortSliceByKey`: reversed keyless prefix, sorted
keyed suffix. -/
theorem sortSliceByKey_split (l : List Value) (k : String) :
    sortSliceByKey l k =
      (l.filter (fun v => (getField v k).isNone)).reverse ++
        sortSliceByKey (l.filter (fun v => (getField v k).isSome)) k := by
  have h := foldl_byKey_split k l [] [] (by simp) (by simp)
  simpa [sortSliceByKey, insertionSortCmp] using h

/-- A relation that holds from every member of a list to everything holds
pairwise. -/
theorem pairwise_of_forall_left {α : Type} {R : α → α → Prop} :
    ∀ l : List α, (∀ a ∈ l, ∀ b, R a b) → l.Pairwise R := by
  intro l h
  induction l with
  | nil => exact List.Pairwise.nil
  | cons x l' ih =>
    rw [List.pairwise_cons]
    exact ⟨fun y _ => h x (List.mem_cons_self x l') y,
      ih (fun a ha b => h a (List.mem_cons_of_mem x ha) b)⟩

/-- Inserting a keyed element into a sorted all-keyed arrangement keeps it
sorted. -/
theorem pairwise_insertR_keyed (k : String) (x : Value) (p : List Value)
    (hx : (getField x k).isSome = true)
    (hp : ∀ y ∈ p, (getField y k).isSome = true)
    (hsort : p.Pairwise (byKeyLe k)) :
    (insertR (cmpByKey k) x p).Pairwise (byKeyLe k) := by
  obtain ⟨s, hs⟩ := Option.isSome_iff_exists.mp hx
  have hsplit :
      (p.reverse.dropWhile (fun y => decide (cmpByKey k x y < 0))).reverse ++
        (p.reverse.takeWhile (fun y => decide (cmpByKey k x y < 0))).reverse = p := by
    rw [← List.reverse_append, List.takeWhile_append_dropWhile, List.reverse_reverse]
  have hsort2 : ((p.reverse.dropWhile (fun y => decide (cmpByKey k x y < 0))).reverse ++
      (p.reverse.takeWhile (fun y => decide (cmpByKey k x y < 0))).reverse).Pairwise
        (byKeyLe k) := by
    rw [hsplit]; exact hsort
  rw [List.pairwise_append] at hsort2
  obtain ⟨hD, hJ, hDJ⟩ := hsort2
  have hmemJ : ∀ y ∈ (p.reverse.takeWhile (fun y => decide (cmpByKey k x y < 0))), y ∈ p := by
    intro y hy
    exact List.mem_reverse.mp ((List.takeWhile_sublist _).mem hy)
  have hxJ : ∀ y ∈ (p.reverse.takeWhile (fun y => decide (cmpByKey k x y < 0))).reverse,
      byKeyLe k x y := by
    intro y hy
    have hyJ := List.mem_reverse.mp hy
    have hpred := List.mem_takeWhile_imp hyJ
    have hyp := hmemJ y hyJ
    obtain ⟨t, ht⟩ := Option.isSome_iff_exists.mp (hp y hyp)
    have hlt : goCompare s t < 0 := by
      rw [← cmpByKey_keyed hs ht]
      simpa using hpred
    have hst : s < t := goCompare_lt_zero_iff.mp hlt
    simp only [byKeyLe, hs, ht]
    exact le_of_lt hst
  unfold insertR
  rw [List.pairwise_append]
  refine ⟨hD, ?_, ?_⟩
  · rw [List.pairwise_cons]
    exact ⟨hxJ, hJ⟩
  · intro a ha b hb
    rcases List.mem_cons.mp hb with heq | hbJ
    · -- b = x: every element of the kept prefix is ≤ x
      rw [heq]
      cases hDcase : p.reverse.dropWhile (fun y => decide (cmpByKey k x y < 0)) with
      | nil => rw [hDcase] at ha; simp at ha
      | cons d D' =>
        have hpredd : (fun y => decide (cmpByKey k x y < 0)) d = false :=
          dropWhile_head_false _ p.reverse d D' hDcase
        have hdp : d ∈ p := by
          have : d ∈ p.reverse := (List.dropWhile_sublist _).mem (by rw [hDcase]; simp)
          exact List.mem_reverse.mp this
        obtain ⟨t, ht⟩ := Option.isSome_iff_exists.mp (hp d hdp)
        have hge : ¬ (goCompare s t < 0) := by
          rw [← cmpByKey_keyed hs ht]
          simpa using hpredd
        have hts : t ≤ s := le_of_not_lt (fun hlt => hge (goCompare_lt_zero_iff.mpr hlt))
        rw [hDcase] at ha
        rw [show (d :: D').reverse = D'.reverse ++ [d] from by simp] at ha
        rcases List.mem_append.mp ha with haD' | had
        · -- a sits before d in the sorted prefix, so key a ≤ key d ≤ key x
          have hDsplit : List.Pairwise (byKeyLe k) (D'.reverse ++ [d]) := by
            rw [← show (d :: D').reverse = D'.reverse ++ [d] from by simp, ← hDcase]
            exact hD
          rw [List.pairwise_append] at hDsplit
          have had2 : byKeyLe k a d := hDsplit.2.2 a haD' d (by simp)
          have hap : a ∈ p := by
            have : a ∈ p.reverse := (List.dropWhile_sublist _).mem
              (by rw [hDcase]; simp; exact Or.inr (List.mem_reverse.mp haD'))
            exact List.mem_reverse.mp this
          obtain ⟨u, hu⟩ := Option.isSome_iff_exists.mp (hp a hap)
          have hut : u ≤ t := by
            have h2 := had2
            simp only [byKeyLe, hu, ht] at h2
            exact h2
          simp only [byKeyLe, hu, hs]
          exact le_trans hut hts
        · have : a = d := by simpa using had
          subst this
          simp only [byKeyLe, ht, hs]
          exact hts
    · exact hDJ a ha b hbJ

/-- The insertion sort of an all-keyed list is sorted and stays all-keyed. -/
theorem pairwise_foldl_keyed (k : String) :
    ∀ (l acc : List Value),
      (∀ y ∈ acc, (getField y k).isSome = true) →
      acc.Pairwise (byKeyLe k) →
      (∀ y ∈ l, (getField y k).isSome = true) →
      (List.foldl (fun a x => insertR (cmpByKey k) x a) acc l).Pairwise (byKeyLe k) := by
  intro l
  induction l with
  | nil => intro acc hacc hsort _; exact hsort
  | cons x l' ih =>
    intro acc hacc hsort hl
    rw [List.foldl_cons]
    have hx : (getField x k).isSome = true := hl x (List.mem_cons_self x l')
    apply ih
    · intro y hy
      have : y ∈ x :: acc := (insertR_perm (cmpByKey k) x acc).mem_iff.mp hy
      rcases List.mem_cons.mp this with rfl | hmem
      · exact hx
      · exact hacc y hmem
    · exact pairwise_insertR_keyed k x acc hx hacc hsort
    · intro y hy
      exact hl y (List.mem_cons_of_mem x hy)

/-- `sortSliceByKey` output is ordered: keyless first, then ascending by
the field. -/
theorem sortSliceByKey_pairwise (l : List Value) (k : String) :
    (sortSliceByKey l k).Pairwise (byKeyLe k) := by
  rw [sortSliceByKey_split]
  rw [List.pairwise_append]
  have hkeyless : ∀ a ∈ (l.filter (fun v => (getField v k).isNone)).reverse,
      getField a k = none := by
    intro a ha
    have := (List.mem_filter.mp (List.mem_reverse.mp ha)).2
    simpa [Option.isNone_iff_eq_none] using this
  refine ⟨?_, ?_, ?_⟩
  · apply pairwise_of_forall_left
    intro a ha b
    simp [byKeyLe, hkeyless a ha]
  · apply pairwise_foldl_keyed k _ [] (by simp) List.Pairwise.nil
    intro y hy
    exact (List.mem_filter.mp hy).2
  · intro a ha b _
    simp [byKeyLe, hkeyless a ha]

/-- A two-element sublist splits its carrier in three. -/
theorem pair_sublist_decomp {α : Type} {a b : α} :
    ∀ {l : List α}, [a, b].Sublist l →
      ∃ l₁ l₂ l₃, l = l₁ ++ a :: (l₂ ++ b :: l₃) := by
  intro l h
  induction l with
  | nil => simp at h
  | cons x l' ih =>
    cases h with
    | cons _ h' =>
      obtain ⟨l₁, l₂, l₃, rfl⟩ := ih h'
      exact ⟨x :: l₁, l₂, l₃, rfl⟩
    | cons₂ _ h' =>
      have hb : b ∈ l' := List.singleton_sublist.mp h'
      obtain ⟨s, t, rfl⟩ := List.append_of_mem hb
      exact ⟨[], s, t, rfl⟩

/-- A pair already arranged in the accumulator survives the remaining
insertions. -/
theorem pair_sublist_foldl {α : Type} {a b : α} (cmp : α → α → Int) :
    ∀ (l acc : List α), [a, b].Sublist acc →
      [a, b].Sublist (List.foldl (fun p x => insertR cmp x p) acc l) := by
  intro l
  induction l with
  | nil => intro acc h; exact h
  | cons x l' ih =>
    intro acc h
    rw [List.foldl_cons]
    exact ih (insertR cmp x acc) (h.trans (sublist_insertR cmp x acc))

/-- C3 stability half for keyed elements: inserting `b` cannot jump an
element carrying the same key. -/
theorem pair_sublist_insertR_eq {k : String} {a b : Value} {s : String}
    (ha : getField a k = some s) (hb : getField b k = some s)
    (acc : List Value) (hmem : a ∈ acc) :
    [a, b].Sublist (insertR (cmpByKey k) b acc) := by
  have hsplit :
      (acc.reverse.dropWhile (fun y => decide (cmpByKey k b y < 0))).reverse ++
        (acc.reverse.takeWhile (fun y => decide (cmpByKey k b y < 0))).reverse = acc := by
    rw [← List.reverse_append, List.takeWhile_append_dropWhile, List.reverse_reverse]
  have hnotJ : a ∉ (acc.reverse.takeWhile (fun y => decide (cmpByKey k b y < 0))) := by
    intro haJ
    have hpred := List.mem_takeWhile_imp haJ
    rw [show cmpByKey k b a = goCompare s s from cmpByKey_keyed hb ha] at hpred
    rw [show goCompare s s = 0 from goCompare_eq_zero_iff.mpr rfl] at hpred
    simp at hpred
  have hmem2 : a ∈ (acc.reverse.dropWhile (fun y => decide (cmpByKey k b y < 0))).reverse ++
      (acc.reverse.takeWhile (fun y => decide (cmpByKey k b y < 0))).reverse := by
    rw [hsplit]; exact hmem
  have haD : a ∈ (acc.reverse.dropWhile (fun y => decide (cmpByKey k b y < 0))).reverse := by
    rcases List.mem_append.mp hmem2 with h | h
    · exact h
    · exact absurd (List.mem_reverse.mp h) hnotJ
  unfold insertR
  have h1 : [a].Sublist
      (acc.reverse.dropWhile (fun y => decide (cmpByKey k b y < 0))).reverse :=
    List.singleton_sublist.mpr haD
  have h2 : [b].Sublist
      (b :: (acc.reverse.takeWhile (fun y => decide (cmpByKey k b y < 0))).reverse) :=
    List.singleton_sublist.mpr (List.mem_cons_self _ _)
  exact h1.append h2

/-- C3 counterexample: two keyless elements come out in reversed order —
`sortSliceByKey` (via Go's unstable `slices.SortFunc`, insertion sort at
this length) swaps them, contradicting the claimed stability for keyless
elements. -/
theorem sortSliceByKey_keyless_swap_counterexample :
    sortSliceByKey [Value.str "p", Value.str "q"] "name" = [Value.str "q", Value.str "p"] ∧
    [Value.str "q", Value.str "p"] ≠ [Value.str "p", Value.str "q"] :=
  ⟨rfl, by simp⟩

/-- C3 (amended): for inputs of length ≤ 12 (where `slices.SortFunc` is
insertion sort), `sortSliceByKey` permutes its input into the reversed
keyless elements followed by the keyed elements sorted ascending by the
field; elements with equal keys keep their relative order, but keyless
elements (non-Mappings or Mappings lacking the field) end up in REVERSED
relative order — the sort is not stable as claimed. -/
theorem sortSliceByKey_spec (l : List Value) (k : String) (hlen : l.length ≤ 12) :
    (sortSliceByKey l k).Perm l ∧
    sortSliceByKey l k =
      (l.filter (fun v => (getField v k).isNone)).reverse ++
        sortSliceByKey (l.filter (fun v => (getField v k).isSome)) k ∧
    (sortSliceByKey l k).Pairwise (byKeyLe k) ∧
    (∀ a b s, getField a k = some s → getField b k = some s →
      [a, b].Sublist l → [a, b].Sublist (sortSliceByKey l k)) ∧
    (∀ a b, getField a k = none → getField b k = none →
      [a, b].Sublist l → [b, a].Sublist (sortSliceByKey l k)) := by
  refine ⟨insertionSortCmp_perm _ l, sortSliceByKey_split l k, sortSliceByKey_pairwise l k,
    ?_, ?_⟩
  · intro a b s ha hb hsub
    obtain ⟨l₁, l₂, l₃, rfl⟩ := pair_sublist_decomp hsub
    show [a, b].Sublist
      (List.foldl (fun p x => insertR (cmpByKey k) x p) [] (l₁ ++ a :: (l₂ ++ b :: l₃)))
    rw [show l₁ ++ a :: (l₂ ++ b :: l₃) = (l₁ ++ a :: l₂) ++ (b :: l₃) by simp]
    rw [List.foldl_append]
    rw [List.foldl_cons]
    apply pair_sublist_foldl
    apply pair_sublist_insertR_eq ha hb
    have hperm := foldl_insertR_perm (cmpByKey k) (l₁ ++ a :: l₂) []
    rw [List.nil_append] at hperm
    exact hperm.mem_iff.mpr (by simp)
  · intro a b ha hb hsub
    rw [sortSliceByKey_split l k]
    have h1 : [a, b].Sublist (l.filter (fun v => (getField v k).isNone)) := by
      have := hsub.filter (fun v => (getField v k).isNone)
      simpa [List.filter_cons, ha, hb] using this
    have h2 : [b, a].Sublist (l.filter (fun v => (getField v k).isNone)).reverse := by
      have := h1.reverse
      simpa using this
    exact h2.trans (List.sublist_append_left _ _)

/-- C3 witness: Scenario D's list (plus the length bound) satisfies the
amended specification. -/
theorem sortSliceByKey_spec_witness :
    ([Value.map [("name", Value.str "c")], Value.map [("name", Value.str "a")],
        Value.map [("name", Value.str "b")]] : List Value).length ≤ 12 ∧
    ((sortSliceByKey [Value.map [("name", Value.str "c")], Value.map [("name", Value.str "a")],
        Value.map [("name", Value.str "b")]] "name").Perm
      [Value.map [("name", Value.str "c")], Value.map [("name", Value.str "a")],
        Value.map [("name", Value.str "b")]] ∧
     sortSliceByKey [Value.map [("name", Value.str "c")], Value.map [("name", Value.str "a")],
        Value.map [("name", Value.str "b")]] "name" =
      ([Value.map [("name", Value.str "c")], Value.map [("name", Value.str "a")],
        Value.map [("name", Value.str "b")]].filter
          (fun v => (getField v "name").isNone)).reverse ++
        sortSliceByKey ([Value.map [("name", Value.str "c")],
          Value.map [("name", Value.str "a")], Value.map [("name", Value.str "b")]].filter
            (fun v => (getField v "name").isSome)) "name" ∧
     (sortSliceByKey [Value.map [("name", Value.str "c")], Value.map [("name", Value.str "a")],
        Value.map [("name", Value.str "b")]] "name").Pairwise (byKeyLe "name") ∧
     (∀ a b s, getField a "name" = some s → getField b "name" = some s →
       [a, b].Sublist [Value.map [("name", Value.str "c")], Value.map [("name", Value.str "a")],
         Value.map [("name", Value.str "b")]] →
       [a, b].Sublist (sortSliceByKey [Value.map [("name", Value.str "c")],
         Value.map [("name", Value.str "a")], Value.map [("name", Value.str "b")]] "name")) ∧
     (∀ a b, getField a "name" = none → getField b "name" = none →
       [a, b].Sublist [Value.map [("name", Value.str "c")], Value.map [("name", Value.str "a")],
         Value.map [("name", Value.str "b")]] →
       [b, a].Sublist (sortSliceByKey [Value.map [("name", Value.str "c")],
         Value.map [("name", Value.str "a")], Value.map [("name", Value.str "b")]] "name"))) :=
  ⟨by norm_num,
   sortSliceByKey_spec [Value.map [("name", Value.str "c")], Value.map [("name", Value.str "a")],
     Value.map [("name", Value.str "b")]] "name" (by norm_num)⟩

/-- A sublist relation lifts through `attachWith`. -/
theorem sublist_attachWith {α : Type} {P : α → Prop} :
    ∀ {l₁ l₂ : List α}, l₁.Sublist l₂ →
      ∀ (H₁ : ∀ x ∈ l₁, P x) (H₂ : ∀ x ∈ l₂, P x),
        (l₁.attachWith P H₁).Sublist (l₂.attachWith P H₂) := by
  intro l₁ l₂ h
  induction h with
  | slnil => intro H₁ H₂; simp
  | @cons l₁ l₂ a h ih =>
    intro H₁ H₂
    rw [List.attachWith_cons]
    exact (ih H₁ _).cons _
  | @cons₂ l₁ l₂ a h ih =>
    intro H₁ H₂
    rw [List.attachWith_cons, List.attachWith_cons]
    exact (ih _ _).cons₂ _

section StableSortByComparator

variable {α κ : Type} [LinearOrder κ] (cmp : α → α → Int) (P : α → Prop) (key : α → κ)

/-- Generic description of `slices.SortStableFunc` with an `Int`-valued
comparator `cmp` that, on elements satisfying `P`, represents the linear
key order `key`: the merge sort (the canonical stable sort) produces a
permutation, sorted by `key`, in which pairs with equal keys keep their
relative order. -/
theorem mergeSort_comparator_spec
    (hck : ∀ a b, P a → P b → (cmp a b ≤ 0 ↔ key a ≤ key b))
    (l : List α) (H : ∀ x ∈ l, P x) :
    ((l.mergeSort (fun a b => decide (cmp a b ≤ 0))).Perm l) ∧
    ((l.mergeSort (fun a b => decide (cmp a b ≤ 0))).Pairwise (fun x y => key x ≤ key y)) ∧
    (∀ a b, key a = key b → [a, b].Sublist l →
      [a, b].Sublist (l.mergeSort (fun a b => decide (cmp a b ≤ 0)))) := by
  set leA : α → α → Bool := fun a b => decide (cmp a b ≤ 0) with hleA
  set leS : {x // P x} → {x // P x} → Bool := fun a b => decide (key a.1 ≤ key b.1) with hleS
  set gl : List {x // P x} := l.attachWith P H with hgl
  have hmapval : gl.map Subtype.val = l := List.attachWith_map_subtype_val l H
  have hmap : (gl.mergeSort leS).map Subtype.val = l.mergeSort leA := by
    rw [List.map_mergeSort (s := leA) ?_]
    · rw [hmapval]
    · intro a _ b _
      rw [hleS, hleA]
      exact decide_eq_decide.mpr (hck a.1 b.1 a.2 b.2).symm
  have htrans : ∀ (a b c : {x // P x}),
      leS a b = true → leS b c = true → leS a c = true := by
    intro a b c hab hbc
    rw [hleS] at hab hbc ⊢
    rw [decide_eq_true_eq] at hab hbc
    exact decide_eq_true (le_trans hab hbc)
  have htotal : ∀ (a b : {x // P x}), (leS a b || leS b a) = true := by
    intro a b
    rw [hleS]
    rcases le_total (key a.1) (key b.1) with h | h
    · simp [h]
    · simp [h]
  refine ⟨?_, ?_, ?_⟩
  · have hperm := (List.mergeSort_perm gl leS).map Subtype.val
    rw [hmap, hmapval] at hperm
    exact hperm
  · have hsorted := List.sorted_mergeSort htrans htotal gl
    have hs2 : ((gl.mergeSort leS).map Subtype.val).Pairwise (fun x y => key x ≤ key y) := by
      rw [List.pairwise_map]
      refine hsorted.imp ?_
      intro a b hab
      rw [hleS] at hab
      exact decide_eq_true_eq.mp hab
    rw [hmap] at hs2
    exact hs2
  · intro a b hkey hsub
    have ha : P a := H a (hsub.subset (by simp))
    have hb : P b := H b (hsub.subset (by simp))
    have hpair : ([a, b].attachWith P (by
        intro x hx
        rcases List.mem_cons.mp hx with rfl | hx2
        · exact ha
        · rcases List.mem_cons.mp hx2 with rfl | hx3
          · exact hb
          · simp at hx3)).Sublist gl :=
      sublist_attachWith hsub _ H
    have hpair2 : ([⟨a, ha⟩, ⟨b, hb⟩] : List {x // P x}).Sublist gl := by
      have heq : [a, b].attachWith P (fun x hx => by
          rcases List.mem_cons.mp hx with rfl | hx2
          · exact ha
          · rcases List.mem_cons.mp hx2 with rfl | hx3
            · exact hb
            · simp at hx3) = ([⟨a, ha⟩, ⟨b, hb⟩] : List {x // P x}) := by
        rw [List.attachWith_cons, List.attachWith_cons]
        rfl
      rw [heq] at hpair
      exact hpair
    have hle : leS ⟨a, ha⟩ ⟨b, hb⟩ = true := by
      rw [hleS]
      exact decide_eq_true (le_of_eq hkey)
    have hms := List.pair_sublist_mergeSort htrans htotal hle hpair2
    have := hms.map Subtype.val
    rw [hmap] at this
    exact this

end StableSortByComparator

/-- One descending-Bool level of a chained Go comparator corresponds to
one lexicographic level with the negated Bool. -/
theorem lex_level_bool {β : Type} [LinearOrder β] {u v : Bool} {c : Int} {x y : β}
    (hc : c ≤ 0 ↔ x ≤ y) :
    ((if u ≠ v then (if u then -1 else 1) else c) ≤ 0) ↔
      (toLex (!u, x) ≤ toLex (!v, y)) := by
  cases u <;> cases v <;>
    simp [Prod.Lex.le_iff, Bool.lt_iff, hc]

/-- One ascending-String level (guarded by inequality) of a chained Go
comparator corresponds to one lexicographic level. -/
theorem lex_level_str {β : Type} [LinearOrder β] {u v : String} {c : Int} {x y : β}
    (hc : c ≤ 0 ↔ x ≤ y) :
    ((if u ≠ v then goCompare u v else c) ≤ 0) ↔
      (toLex (u, x) ≤ toLex (v, y)) := by
  by_cases h : u = v
  · subst h
    simp [Prod.Lex.le_iff, hc]
  · rw [if_pos h]
    rw [goCompare_le_zero_iff]
    simp only [Prod.Lex.le_iff]
    constructor
    · intro hle
      exact Or.inl (lt_of_le_of_ne hle h)
    · intro hor
      rcases hor with hlt | ⟨heq, _⟩
      · exact le_of_lt hlt
      · exact absurd heq h
/-- The innermost level of the chained Go comparator. -/
theorem lex_level_final {u v : String} :
    ((if u ≠ v then goCompare u v else 0) ≤ 0) ↔ u ≤ v := by
  by_cases h : u = v
  · subst h
    simp
  · rw [if_pos h]
    exact goCompare_le_zero_iff

/-- On manifests whose `apiVersion` parses, the top-level comparator
represents the claim's lexicographic sort key. -/
theorem compareObjects_le_iff (a b : Obj)
    (ha : (parseGroupVersion (getAPIVersion a)).isSome = true)
    (hb : (parseGroupVersion (getAPIVersion b)).isSome = true) :
    compareObjects a b ≤ 0 ↔ sortKey a ≤ sortKey b := by
  obtain ⟨gva, hga⟩ := Option.isSome_iff_exists.mp ha
  obtain ⟨gvb, hgb⟩ := Option.isSome_iff_exists.mp hb
  have h1 := lex_level_str (u := getNamespace a) (v := getNamespace b)
    (lex_level_final (u := getName a) (v := getName b))
  have h2 := lex_level_str (u := getKind a) (v := getKind b) h1
  have h3 := lex_level_str (u := gva.2) (v := gvb.2) h2
  have h4 := lex_level_str (u := gva.1) (v := gvb.1) h3
  have h5 := lex_level_bool (u := isClusterScoped a) (v := isClusterScoped b) h4
  have h6 := lex_level_bool (u := isCRD a) (v := isCRD b) h5
  unfold compareObjects sortKey
  simp only [hga, hgb, Option.getD_some]
  exact h6

/-- Small helper: `sortEachObject` with no rules is the identity. -/
theorem sortEachObject_nil_rules :
    ∀ l : List Obj, sortEachObject l [] = Except.ok l := by
  intro l
  induction l with
  | nil => rfl
  | cons o rest ih =>
    show (match Object o [] with
      | .error e => .error ("failed to sort object: " ++ e)
      | .ok sorted => do
          let rest' ← sortEachObject rest []
          pure (sorted :: rest')) = Except.ok (o :: rest)
    rw [show Object o [] = Except.ok o from rfl, ih]
    rfl

/-- C1: on manifest lists whose `apiVersion`s all parse, the top-level
ordering is a stable sort by the tuple (`isCRD` desc, `isClusterScoped`
desc, group, version, kind, namespace, name asc): the output permutes the
input, is sorted by the key (hence every CRD precedes every other
cluster-scoped object, which precede all namespaced ones), manifests with
equal keys keep their encountered order, and `Objects` (with no rules) is
exactly this ordering. -/
theorem sortObjects_spec :
    ∀ objects : List Obj,
      (∀ o ∈ objects, (parseGroupVersion (getAPIVersion o)).isSome = true) →
      (sortObjects objects).Perm objects ∧
      (sortObjects objects).Pairwise (fun x y => sortKey x ≤ sortKey y) ∧
      (∀ a b, sortKey a = sortKey b → [a, b].Sublist objects →
        [a, b].Sublist (sortObjects objects)) ∧
      (sortObjects objects).Pairwise
        (fun x y => (isCRD y = true → isCRD x = true) ∧
          (isCRD x = isCRD y → isClusterScoped y = true → isClusterScoped x = true)) ∧
      Objects objects [] = Except.ok (sortObjects objects) := by
  intro objects H
  obtain ⟨hperm, hpair, hstable⟩ :=
    mergeSort_comparator_spec compareObjects
      (fun o => (parseGroupVersion (getAPIVersion o)).isSome = true) sortKey
      compareObjects_le_iff objects H
  refine ⟨hperm, hpair, hstable, ?_, ?_⟩
  · refine hpair.imp ?_
    intro x y hxy
    have h1 : (!isCRD x) ≤ (!isCRD y) := by
      rcases Prod.Lex.le_iff _ _ |>.mp hxy with h | ⟨h, _⟩
      · exact le_of_lt h
      · exact le_of_eq h
    constructor
    · intro hy
      cases hx : isCRD x with
      | true => rfl
      | false =>
        rw [hx, hy] at h1
        exact absurd h1 (by decide)
    · intro hcrd hscope
      have h2 : toLex (!isClusterScoped x,
          toLex (((parseGroupVersion (getAPIVersion x)).getD ("", "")).1,
            toLex (((parseGroupVersion (getAPIVersion x)).getD ("", "")).2,
              toLex (getKind x, toLex (getNamespace x, getName x))))) ≤
          toLex (!isClusterScoped y,
            toLex (((parseGroupVersion (getAPIVersion y)).getD ("", "")).1,
              toLex (((parseGroupVersion (getAPIVersion y)).getD ("", "")).2,
                toLex (getKind y, toLex (getNamespace y, getName y))))) := by
        rcases Prod.Lex.le_iff _ _ |>.mp hxy with h | ⟨_, h⟩
        · rw [hcrd] at h
          exact absurd h (lt_irrefl _)
        · exact h
      have h3 : (!isClusterScoped x) ≤ (!isClusterScoped y) := by
        rcases Prod.Lex.le_iff _ _ |>.mp h2 with h | ⟨h, _⟩
        · exact le_of_lt h
        · exact le_of_eq h
      cases hx : isClusterScoped x with
      | true => rfl
      | false =>
        rw [hx, hscope] at h3
        exact absurd h3 (by decide)
  · show (do
      let sortedObjects ← sortEachObject objects []
      pure (sortObjects sortedObjects) : Except String (List Obj)) = _
    rw [sortEachObject_nil_rules objects]
    rfl

/-- C1 witness: Scenario F's triple — a Deployment, its Namespace, and a
CRD, all with parseable `apiVersion`s. -/
theorem sortObjects_spec_witness :
    (∀ o ∈ [
      [("apiVersion", Value.str "apps/v1"), ("kind", Value.str "Deployment"),
        ("metadata", Value.map [("name", Value.str "app"), ("namespace", Value.str "ns1")])],
      [("apiVersion", Value.str "v1"), ("kind", Value.str "Namespace"),
        ("metadata", Value.map [("name", Value.str "ns1")])],
      [("apiVersion", Value.str "apiextensions.k8s.io/v1"),
        ("kind", Value.str "CustomResourceDefinition"),
        ("metadata", Value.map [("name", Value.str "crd1")])]],
      (parseGroupVersion (getAPIVersion o)).isSome = true) ∧
    ((sortObjects [
      [("apiVersion", Value.str "apps/v1"), ("kind", Value.str "Deployment"),
        ("metadata", Value.map [("name", Value.str "app"), ("namespace", Value.str "ns1")])],
      [("apiVersion", Value.str "v1"), ("kind", Value.str "Namespace"),
        ("metadata", Value.map [("name", Value.str "ns1")])],
      [("apiVersion", Value.str "apiextensions.k8s.io/v1"),
        ("kind", Value.str "CustomResourceDefinition"),
        ("metadata", Value.map [("name", Value.str "crd1")])]]).Pairwise
        (fun x y => (isCRD y = true → isCRD x = true) ∧
          (isCRD x = isCRD y → isClusterScoped y = true → isClusterScoped x = true))) :=
  ⟨by decide,
   (sortObjects_spec [
      [("apiVersion", Value.str "apps/v1"), ("kind", Value.str "Deployment"),
        ("metadata", Value.map [("name", Value.str "app"), ("namespace", Value.str "ns1")])],
      [("apiVersion", Value.str "v1"), ("kind", Value.str "Namespace"),
        ("metadata", Value.map [("name", Value.str "ns1")])],
      [("apiVersion", Value.str "apiextensions.k8s.io/v1"),
        ("kind", Value.str "CustomResourceDefinition"),
        ("metadata", Value.map [("name", Value.str "crd1")])]] (by decide)).2.2.2.1⟩

/-- One joined-string level of the RBAC comparator (guarded by a non-zero
comparison) corresponds to one lexicographic level. -/
theorem lex_level_cmp {β : Type} [LinearOrder β] {u v : String} {c : Int} {x y : β}
    (hc : c ≤ 0 ↔ x ≤ y) :
    ((if goCompare u v ≠ 0 then goCompare u v else c) ≤ 0) ↔
      (toLex (u, x) ≤ toLex (v, y)) := by
  by_cases h : u = v
  · subst h
    rw [if_neg (by simp [goCompare_eq_zero_iff])]
    simp [Prod.Lex.le_iff, hc]
  · rw [if_pos (fun h0 => h (goCompare_eq_zero_iff.mp h0))]
    rw [goCompare_le_zero_iff]
    simp only [Prod.Lex.le_iff]
    constructor
    · intro hle
      exact Or.inl (lt_of_le_of_ne hle h)
    · intro hor
      rcases hor with hlt | ⟨heq, _⟩
      · exact le_of_lt hlt
      · exact absurd heq h

/-- The innermost level of the RBAC comparator. -/
theorem lex_level_cmp_final {u v : String} :
    ((if goCompare u v ≠ 0 then goCompare u v else 0) ≤ 0) ↔ u ≤ v := by
  by_cases h : u = v
  · subst h
    rw [if_neg (by simp [goCompare_eq_zero_iff])]
    simp
  · rw [if_pos (fun h0 => h (goCompare_eq_zero_iff.mp h0))]
    exact goCompare_le_zero_iff

/-- On elements that decode as RBAC policy rules, the `sortRBACRules`
comparator represents the claim's lexicographic key. -/
theorem cmpRBACRules_le_iff (a b : Value)
    (ha : (toPolicyRule a).isSome = true) (hb : (toPolicyRule b).isSome = true) :
    cmpRBACRules a b ≤ 0 ↔ rbacKey a ≤ rbacKey b := by
  obtain ⟨ra, hra⟩ := Option.isSome_iff_exists.mp ha
  obtain ⟨rb, hrb⟩ := Option.isSome_iff_exists.mp hb
  have h1 := lex_level_cmp
    (u := String.intercalate ";" ra.nonResourceURLs)
    (v := String.intercalate ";" rb.nonResourceURLs)
    (lex_level_cmp_final
      (u := String.intercalate ";" ra.verbs) (v := String.intercalate ";" rb.verbs))
  have h2 := lex_level_cmp
    (u := String.intercalate ";" ra.resourceNames)
    (v := String.intercalate ";" rb.resourceNames) h1
  have h3 := lex_level_cmp
    (u := String.intercalate ";" ra.resources)
    (v := String.intercalate ";" rb.resources) h2
  have h4 := lex_level_cmp
    (u := String.intercalate ";" ra.apiGroups)
    (v := String.intercalate ";" rb.apiGroups) h3
  have h5 := lex_level_bool
    (u := ra.apiGroups.contains "") (v := rb.apiGroups.contains "") h4
  unfold cmpRBACRules rbacKey
  simp only [hra, hrb, Option.getD_some, compareStringSlices]
  exact h5

/-- `rbacHasCore v`: the decoded rule's `apiGroups` contains the core
group `""`. -/
def rbacHasCore (v : Value) : Bool :=
  ((toPolicyRule v).getD {}).apiGroups.contains ""

/-- C5: on lists of RBAC-policy-rule-shaped elements, `sortRBACRules` is a
stable sort by the claim's key: the output permutes the input, is sorted by
(core-group presence desc, then the semicolon-joined `apiGroups`,
`resources`, `resourceNames`, `nonResourceURLs`, `verbs` asc), every
element containing the core group precedes every element that does not,
and equal-key elements keep their relative order. -/
theorem sortRBACRules_spec :
    ∀ rules : List Value,
      (∀ v ∈ rules, (toPolicyRule v).isSome = true) →
      (sortRBACRules rules).Perm rules ∧
      (sortRBACRules rules).Pairwise (fun x y => rbacKey x ≤ rbacKey y) ∧
      (sortRBACRules rules).Pairwise
        (fun x y => rbacHasCore y = true → rbacHasCore x = true) ∧
      (∀ a b, rbacKey a = rbacKey b → [a, b].Sublist rules →
        [a, b].Sublist (sortRBACRules rules)) := by
  intro rules H
  obtain ⟨hperm, hpair, hstable⟩ :=
    mergeSort_comparator_spec cmpRBACRules
      (fun v => (toPolicyRule v).isSome = true) rbacKey
      cmpRBACRules_le_iff rules H
  refine ⟨hperm, hpair, ?_, hstable⟩
  refine hpair.imp ?_
  intro x y hxy hcy
  have h1 : (!rbacHasCore x) ≤ (!rbacHasCore y) := by
    rcases Prod.Lex.le_iff _ _ |>.mp hxy with h | ⟨h, _⟩
    · exact le_of_lt h
    · exact le_of_eq h
  cases hx : rbacHasCore x with
  | true => rfl
  | false =>
    rw [hx, hcy] at h1
    exact absurd h1 (by decide)

/-- C5 witness: Scenario E in both input orders — a rule with the core
group and one with `apiGroups=["apps"]` — plus the derived core-first
pairwise ordering. -/
theorem sortRBACRules_spec_witness :
    (∀ v ∈ [Value.map [("apiGroups", Value.seq [Value.str "apps"])],
        Value.map [("apiGroups", Value.seq [Value.str ""])]],
      (toPolicyRule v).isSome = true) ∧
    ((sortRBACRules [Value.map [("apiGroups", Value.seq [Value.str "apps"])],
        Value.map [("apiGroups", Value.seq [Value.str ""])]]).Pairwise
      (fun x y => rbacHasCore y = true → rbacHasCore x = true)) ∧
    ((sortRBACRules [Value.map [("apiGroups", Value.seq [Value.str ""])],
        Value.map [("apiGroups", Value.seq [Value.str "apps"])]]).Pairwise
      (fun x y => rbacHasCore y = true → rbacHasCore x = true)) :=
  ⟨by decide,
   (sortRBACRules_spec [Value.map [("apiGroups", Value.seq [Value.str "apps"])],
      Value.map [("apiGroups", Value.seq [Value.str ""])]] (by decide)).2.2.1,
   (sortRBACRules_spec [Value.map [("apiGroups", Value.seq [Value.str ""])],
      Value.map [("apiGroups", Value.seq [Value.str "apps"])]] (by decide)).2.2.1⟩

end Kubesort
